import Mathlib

/-!
Verification of the dev/prod configuration sync component (`src/component.py`).

The free-form JSON parameter trees handled by the component are embedded as
the inductive type `JVal`; Python dictionaries become ordered association
lists (first occurrence wins on lookup, insertion order is preserved, and
assignment updates in place or appends, matching `dict` semantics).  Python
exceptions that escape a function (`TypeError`, `AttributeError`, `KeyError`
raised outside the one guarded lookup) are modelled by `Except Unit`.
String helpers that the code applies to dotted paths and secret markers are
embedded at the character level so that every definition evaluates by kernel
reduction.
-/

namespace DevProdSync

/-- A JSON-like value: the shape of Python data handled by the component.
Dictionaries are ordered association lists, mirroring `dict` iteration and
insertion order. -/
inductive JVal where
  | null : JVal
  | bool (b : Bool) : JVal
  | num (n : Int) : JVal
  | str (s : String) : JVal
  | arr (xs : List JVal) : JVal
  | obj (kvs : List (String × JVal)) : JVal

/-- Lookup in an association list (first match), i.e. Python `d.get(k)` /
`d[k]` for the modelled ordered dictionaries. -/
def alGet {κ α : Type} [DecidableEq κ] : List (κ × α) → κ → Option α
  | [], _ => none
  | (k, v) :: rest, key => if k = key then some v else alGet rest key

/-- Assignment `d[k] = v` on the association-list model of a dictionary:
replace the first binding of `k` in place, or append a new binding. -/
def alSet {κ α : Type} [DecidableEq κ] : List (κ × α) → κ → α → List (κ × α)
  | [], key, val => [(key, val)]
  | (k, v) :: rest, key, val =>
    if k = key then (key, val) :: rest else (k, v) :: alSet rest key val

/-- Python truthiness (`bool(v)`) of a `JVal`: `None`, `False`, `0`, `''`,
`[]` and `{}` are falsy, everything else is truthy. -/
def truthy : JVal → Bool
  | .null => false
  | .bool b => b
  | .num n => n != 0
  | .str s => s != ""
  | .arr xs => !xs.isEmpty
  | .obj kvs => !kvs.isEmpty

/-- Character-level embedding of Python `path.split('.')`, as applied by
`_replace_ignored_properties` to dotted property paths. -/
def splitDotAux : List Char → List Char → List String
  | [], cur => [String.mk cur.reverse]
  | c :: rest, cur =>
    if c = '.' then String.mk cur.reverse :: splitDotAux rest []
    else splitDotAux rest (c :: cur)

/-- Python `s.split('.')` for a whole string. -/
def splitDot (s : String) : List String := splitDotAux s.data []

/-- Character-level embedding of Python `key.startswith('#')`, the secret
marker test of `_retrieve_encrypted_properties`. -/
def startsWithHash (s : String) : Bool :=
  match s.data with
  | c :: _ => c = '#'
  | [] => false

/-- Embedding of the inner `find_value` of `Component._replace_ignored_properties`,
on an already-split key path.  A missing key in a dictionary raises `KeyError`,
which the code catches and answers by `break`, so the partially resolved value
(the very dictionary in which the key was missing) is returned.  Indexing a
non-dictionary raises an uncaught `TypeError`, modelled as `Except.error`. -/
def findValue : List String → JVal → Except Unit JVal
  | [], v => .ok v
  | key :: keys, v =>
    match v with
    | .obj kvs =>
      match alGet kvs key with
      | some v2 => findValue keys v2
      | none => .ok (.obj kvs)
    | _ => .error ()

/-- Embedding of the inner `replace_value` of `Component._replace_ignored_properties`,
on an already-split key path.  Every parent along the path must be a dictionary
(otherwise `rv.get(key)` raises `AttributeError` or the assignment raises
`TypeError`); a missing non-final key raises `KeyError` at `prev_object[key]`;
the final key is assigned (insert or overwrite). -/
def replaceValue : List String → JVal → JVal → Except Unit JVal
  | [], v, _ => .ok v
  | [key], v, value =>
    match v with
    | .obj kvs => .ok (.obj (alSet kvs key value))
    | _ => .error ()
  | key :: keys2 :: keys, v, value =>
    match v with
    | .obj kvs =>
      match alGet kvs key with
      | some child =>
        match replaceValue (keys2 :: keys) child value with
        | .ok child2 => .ok (.obj (alSet kvs key child2))
        | .error e => .error e
      | none => .error ()
    | _ => .error ()

/-- One iteration of the loop in `Component._replace_ignored_properties`:
prefix the path with `configuration.`, resolve it in both snapshots, and if
both resolved values are truthy overwrite the changed configuration's value
with the original configuration's. -/
def replaceIgnoredStep (originalConfig : JVal) (acc : Except Unit JVal)
    (ignoredPropertyPath : String) : Except Unit JVal :=
  match acc with
  | .error e => .error e
  | .ok changed =>
    match findValue (splitDot ("configuration." ++ ignoredPropertyPath)) originalConfig with
    | .error e => .error e
    | .ok originalValue =>
      match findValue (splitDot ("configuration." ++ ignoredPropertyPath)) changed with
      | .error e => .error e
      | .ok changedValue =>
        if truthy originalValue && truthy changedValue then
          replaceValue (splitDot ("configuration." ++ ignoredPropertyPath)) changed originalValue
        else .ok changed

/-- Embedding of `Component._replace_ignored_properties`: fold the replacement
step over the ignored property paths (an empty list leaves the changed
configuration untouched, as does the code's `if ignored_properties:` guard). -/
def replaceIgnoredProperties (changedConfig originalConfig : JVal)
    (ignoredProperties : List String) : Except Unit JVal :=
  ignoredProperties.foldl (replaceIgnoredStep originalConfig) (.ok changedConfig)

mutual

/-- Embedding of the inner `find_secret` of
`Component._retrieve_encrypted_properties` at one key/value pair: extend the
dotted path, emit it if the key starts with `#` (and do not descend further),
otherwise descend if and only if the value is a dictionary. -/
def findSecret (path : String) (configPart : JVal) (currentKey : String) :
    List String :=
  let resultPath := if path = "" then currentKey else path ++ "." ++ currentKey
  if startsWithHash currentKey then [resultPath]
  else
    match configPart with
    | .obj kvs => findSecretList resultPath kvs
    | _ => []
termination_by structural configPart

/-- The dictionary-iteration part of `find_secret`: visit every key/value pair
of a dictionary in order, collecting the emitted secret paths. -/
def findSecretList (path : String) : List (String × JVal) → List String
  | [] => []
  | (k, v) :: rest => findSecret path v k ++ findSecretList path rest
termination_by structural l => l

end

/-- Embedding of `Component._retrieve_encrypted_properties`: walk
`configuration['configuration'].get('parameters', {})` key by key.  Modelled on
well-formed configuration objects; a missing or non-dictionary part is treated
as the empty parameter set (the code would raise `KeyError` for a missing
`configuration` key, which no claim exercises). -/
def retrieveEncryptedProperties (configuration : JVal) : List String :=
  let parameters : List (String × JVal) :=
    match configuration with
    | .obj kvs =>
      match alGet kvs "configuration" with
      | some (.obj ckvs) =>
        match alGet ckvs "parameters" with
        | some (.obj pkvs) => pkvs
        | _ => []
      | _ => []
    | _ => []
  findSecretList "" parameters

/-! ## Configuration differ (`Component._split_configuration_parts`) -/

/-- A configuration row: Python row dictionaries carry an `id` plus a free
payload (name, description, parameter tree, flags), modelled as `body`. -/
structure RowCfg where
  id : String
  body : JVal

/-- A configuration object with its `id`, its ordered row list and the rest of
its payload. -/
structure Cfg where
  id : String
  rows : List RowCfg
  body : JVal

/-- The `root_config` result dictionary of `_split_configuration_parts`. -/
structure RootSplit where
  update : Option Cfg
  create : Option Cfg

/-- The `row_configs` result dictionary of `_split_configuration_parts`. -/
structure RowSplit where
  update : List RowCfg
  create : List RowCfg

/-- Embedding of `Component._split_configuration_parts`: with a destination
counterpart, the root goes to `update` and each source row goes to `update`
or `create` according to whether its id occurs among the destination row ids
(a single order-preserving pass, i.e. two complementary filters); without a
destination, the root and every source row go to `create`. -/
def splitConfigurationParts (srcConfiguration : Cfg) (dstConfiguration : Option Cfg) :
    RootSplit × RowSplit :=
  match dstConfiguration with
  | some dst =>
    let dstRowIds := dst.rows.map (fun r => r.id)
    (⟨some srcConfiguration, none⟩,
     ⟨srcConfiguration.rows.filter (fun r => dstRowIds.contains r.id),
      srcConfiguration.rows.filter (fun r => !dstRowIds.contains r.id)⟩)
  | none => (⟨none, some srcConfiguration⟩, ⟨[], srcConfiguration.rows⟩)

/-! ## Token cache (`StorageToken.is_expired`) -/

/-- A storage token as cached by the component.  The `expires` field models
`_get_expires_timestamp()`: `none` when the stored expiry string is empty or
missing, otherwise the parsed absolute Unix timestamp (timestamp parsing
itself is done by the external `dateutil` library, out of scope). -/
structure StorageToken where
  id : String
  token : String
  expires : Option Int

/-- Embedding of `StorageToken.is_expired`, with `now` the current Unix
timestamp (`int(datetime.datetime.now().timestamp())`): no parseable expiry
means expired; otherwise expired exactly when the remaining lifetime
`expires - now` is at most `10 * 60` seconds. -/
def isExpired (t : StorageToken) (now : Int) : Bool :=
  match t.expires with
  | none => true
  | some expirationDate => expirationDate - now ≤ 10 * 60

/-! ## Orchestration mapping (`Component._add_orchestration_mapping`) -/

/-- Embedding of `Component._build_project_pk`. -/
def buildProjectPk (region projectId : String) : String :=
  region ++ "-" ++ projectId

/-- Embedding of `Component._add_orchestration_mapping`: insert the forward
binding `srcId → dstId` under the source project key and the reverse binding
`dstId → srcId` under the destination project key.  A falsy (absent or empty)
inner dictionary is first reset to `{}`, as in the code. -/
def addOrchestrationMapping (region srcProjectId dstProjectId : String)
    (orchestrationMapping : List (String × List (String × String)))
    (srcId dstId : String) : List (String × List (String × String)) :=
  let srcPk := buildProjectPk region srcProjectId
  let srcInner :=
    match alGet orchestrationMapping srcPk with
    | some inner => if inner.isEmpty then [] else inner
    | none => []
  let mapping1 := alSet orchestrationMapping srcPk (alSet srcInner srcId dstId)
  let dstPk := buildProjectPk region dstProjectId
  let dstInner :=
    match alGet mapping1 dstPk with
    | some inner => if inner.isEmpty then [] else inner
    | none => []
  alSet mapping1 dstPk (alSet dstInner dstId srcId)

/-! ## Linked orchestration rewriting (`Component._replace_linked_orchestrations`) -/

/-- One entry of an orchestration's task list, as read by
`_replace_linked_orchestrations`: the `component` field and the
`actionParameters.config` reference slot.  Ids are modelled as integers
(Python's `str`/`int` conversions between their decimal representations are
identities under this model); `none` models a null reference. -/
structure LinkedTask where
  component : String
  config : Option Int

/-- Embedding of the loop of `Component._replace_linked_orchestrations` over
`orchestration_cfg.get('tasks', [])`: every task whose component is
`orchestrator` has its reference slot overwritten with
`orchestration_mapping.get(project_pk, {}).get(str(id))`, which is `none`
whenever either lookup misses. -/
def replaceLinkedOrchestrations
    (orchestrationMapping : List (String × List (Int × Int)))
    (projectPk : String) (tasks : List LinkedTask) : List LinkedTask :=
  tasks.map (fun task =>
    if task.component = "orchestrator" then
      { task with config :=
          match task.config with
          | some orchestrationId =>
            match alGet orchestrationMapping projectPk with
            | some inner => alGet inner orchestrationId
            | none => none
          | none => none }
    else task)

/-! ## Association-list lemmas -/

theorem alGet_alSet_same {κ α : Type} [DecidableEq κ] (l : List (κ × α)) (k : κ) (v : α) :
    alGet (alSet l k v) k = some v := by
  induction l with
  | nil => simp [alGet, alSet]
  | cons hd tl ih =>
    obtain ⟨k0, v0⟩ := hd
    by_cases h : k0 = k
    · simp [alGet, alSet, h]
    · simp [alGet, alSet, h, ih]

theorem alGet_alSet_other {κ α : Type} [DecidableEq κ] (l : List (κ × α)) (k k2 : κ) (v : α)
    (h : k ≠ k2) : alGet (alSet l k v) k2 = alGet l k2 := by
  induction l with
  | nil => simp [alGet, alSet, h]
  | cons hd tl ih =>
    obtain ⟨k0, v0⟩ := hd
    have hne : ¬(k2 = k) := fun hh => h hh.symm
    by_cases h0 : k0 = k
    · subst h0
      simp [alGet, alSet, h]
    · by_cases h2 : k0 = k2 <;> simp [alGet, alSet, h0, h2, ih, hne]

theorem alSet_isEmpty {κ α : Type} [DecidableEq κ] (l : List (κ × α)) (k : κ) (v : α) :
    (alSet l k v).isEmpty = false := by
  cases l with
  | nil => simp [alSet]
  | cons hd tl =>
    obtain ⟨k0, v0⟩ := hd
    by_cases h : k0 = k <;> simp [alSet, h]

/-! ## Claim C1 -/

/-- C1: splitting a source configuration against an absent destination yields a
root-create of the source and a row-create for every source row with empty
update buckets; against a present destination it yields a root-update and
partitions the source rows by destination row-id membership — every matched
row lands in the update bucket, every unmatched one in the create bucket, no
source row is dropped or duplicated, and destination-only rows appear in
neither bucket. -/
theorem split_configuration_parts_correct (src dst : Cfg) :
    splitConfigurationParts src none = (⟨none, some src⟩, ⟨[], src.rows⟩)
    ∧ (splitConfigurationParts src (some dst)).1 = ⟨some src, none⟩
    ∧ (∀ r ∈ (splitConfigurationParts src (some dst)).2.update,
        r ∈ src.rows ∧ ∃ dr ∈ dst.rows, dr.id = r.id)
    ∧ (∀ r ∈ (splitConfigurationParts src (some dst)).2.create,
        r ∈ src.rows ∧ ∀ dr ∈ dst.rows, dr.id ≠ r.id)
    ∧ ((splitConfigurationParts src (some dst)).2.update
        ++ (splitConfigurationParts src (some dst)).2.create).Perm src.rows
    ∧ (∀ dr ∈ dst.rows, (∀ sr ∈ src.rows, sr.id ≠ dr.id) →
        dr ∉ (splitConfigurationParts src (some dst)).2.update
        ∧ dr ∉ (splitConfigurationParts src (some dst)).2.create) := by
  refine ⟨rfl, rfl, ?_, ?_, ?_, ?_⟩
  · intro r hr
    rw [splitConfigurationParts, List.mem_filter] at hr
    refine ⟨hr.1, ?_⟩
    have h := hr.2
    rw [List.contains_eq_any_beq, List.any_eq_true] at h
    obtain ⟨x, hx, hbeq⟩ := h
    rw [List.mem_map] at hx
    obtain ⟨dr, hdr, hid⟩ := hx
    refine ⟨dr, hdr, ?_⟩
    rw [hid]
    exact (eq_of_beq hbeq).symm
  · intro r hr
    rw [splitConfigurationParts, List.mem_filter] at hr
    refine ⟨hr.1, ?_⟩
    intro dr hdr heq
    have h := hr.2
    rw [Bool.not_eq_true', List.contains_eq_any_beq, List.any_eq_false] at h
    exact h dr.id (List.mem_map_of_mem _ hdr) (by simp [heq])
  · exact List.filter_append_perm _ src.rows
  · intro dr hdr hids
    constructor
    · intro hmem
      rw [splitConfigurationParts, List.mem_filter] at hmem
      exact hids dr hmem.1 rfl
    · intro hmem
      rw [splitConfigurationParts, List.mem_filter] at hmem
      exact hids dr hmem.1 rfl

/-! ## Claim C5 -/

/-- C5: a storage token with a parseable expiry is not expired exactly when
the current time is strictly before expiry minus 600 seconds; a token without
a parseable expiry is always expired; and at the concrete boundary instants of
the test-suite (now = 2021-06-01T10:15:28+02:00, i.e. Unix 1622535328), a
token expiring at 10:20:28 (+02:00) is expired while one expiring at 10:35:28
is not. -/
theorem storage_token_expiry_correct :
    (∀ (i tk : String) (e now : Int),
      isExpired ⟨i, tk, some e⟩ now = false ↔ now < e - 600)
    ∧ (∀ (i tk : String) (now : Int), isExpired ⟨i, tk, none⟩ now = true)
    ∧ isExpired ⟨"9259", "XXXXXXX", some 1622535628⟩ 1622535328 = true
    ∧ isExpired ⟨"9259", "XXXXXXX", some 1622536528⟩ 1622535328 = false := by
  refine ⟨?_, fun _ _ _ => rfl, by decide, by decide⟩
  intro i tk e now
  simp only [isExpired, decide_eq_false_iff_not, not_le]
  omega

/-! ## Claim C6 -/

/-- C6: after `_add_orchestration_mapping(S, D)`, looking up S under the source
project key yields D and looking up D under the destination project key yields
S, for every prior mapping state and all ids and project keys (including the
degenerate cases of equal project keys or equal ids). -/
theorem add_orchestration_mapping_bidirectional (region srcProjectId dstProjectId : String)
    (orchestrationMapping : List (String × List (String × String))) (srcId dstId : String) :
    ((alGet (addOrchestrationMapping region srcProjectId dstProjectId orchestrationMapping srcId dstId)
        (buildProjectPk region srcProjectId)).bind (fun inner => alGet inner srcId)) = some dstId
    ∧ ((alGet (addOrchestrationMapping region srcProjectId dstProjectId orchestrationMapping srcId dstId)
        (buildProjectPk region dstProjectId)).bind (fun inner => alGet inner dstId)) = some srcId := by
  simp only [addOrchestrationMapping]
  set srcPk := buildProjectPk region srcProjectId with hsrc
  set dstPk := buildProjectPk region dstProjectId with hdst
  set srcInner :=
    match alGet orchestrationMapping srcPk with
    | some inner => if inner.isEmpty then [] else inner
    | none => ([] : List (String × String)) with hsrcInner
  set mapping1 := alSet orchestrationMapping srcPk (alSet srcInner srcId dstId) with hm1
  by_cases hpk : srcPk = dstPk
  · have hinner1 : alGet mapping1 dstPk = some (alSet srcInner srcId dstId) := by
      rw [← hpk, hm1, alGet_alSet_same]
    simp only [hinner1, alSet_isEmpty, Bool.false_eq_true, if_false]
    constructor
    · rw [hpk, alGet_alSet_same, Option.some_bind]
      by_cases hid : srcId = dstId
      · rw [← hid, alGet_alSet_same, hid]
      · rw [alGet_alSet_other _ _ _ _ (fun h => hid h.symm), alGet_alSet_same]
    · rw [alGet_alSet_same, Option.some_bind, alGet_alSet_same]
  · have hinner1 : alGet mapping1 srcPk = some (alSet srcInner srcId dstId) := by
      rw [hm1, alGet_alSet_same]
    constructor
    · rw [alGet_alSet_other _ _ _ _ (fun h => hpk h.symm), hinner1,
        Option.some_bind, alGet_alSet_same]
    · rw [alGet_alSet_same, Option.some_bind, alGet_alSet_same]

/-! ## Claim C8 -/

/-- C8: rewriting an orchestration's task list replaces each orchestrator-type
reference with the destination-side id recorded in the mapping under the
current source project key, yields null whenever the project key or the id is
unmapped (never leaving the source-project id in place), and touches no other
task. -/
theorem replace_linked_orchestrations_correct
    (orchestrationMapping : List (String × List (Int × Int)))
    (projectPk : String) (tasks : List LinkedTask) :
    (replaceLinkedOrchestrations orchestrationMapping projectPk tasks).length = tasks.length
    ∧ (∀ (i : Nat) (h1 : i < tasks.length)
        (h2 : i < (replaceLinkedOrchestrations orchestrationMapping projectPk tasks).length),
        ((tasks.get ⟨i, h1⟩).component ≠ "orchestrator" →
          (replaceLinkedOrchestrations orchestrationMapping projectPk tasks).get ⟨i, h2⟩
            = tasks.get ⟨i, h1⟩)
        ∧ ((tasks.get ⟨i, h1⟩).component = "orchestrator" →
            ((replaceLinkedOrchestrations orchestrationMapping projectPk tasks).get ⟨i, h2⟩).component
              = (tasks.get ⟨i, h1⟩).component
            ∧ ((replaceLinkedOrchestrations orchestrationMapping projectPk tasks).get ⟨i, h2⟩).config
              = (alGet orchestrationMapping projectPk).bind
                  (fun inner => (tasks.get ⟨i, h1⟩).config.bind (fun oid => alGet inner oid)))) := by
  constructor
  · simp [replaceLinkedOrchestrations]
  · intro i h1 h2
    simp only [replaceLinkedOrchestrations] at h2 ⊢
    rw [List.get_map]
    constructor
    · intro hne
      simp only [if_neg hne]
    · intro he
      simp only [he, if_pos]
      refine ⟨trivial, ?_⟩
      cases hc : (tasks.get ⟨i, h1⟩).config with
      | none =>
        simp only [hc]
        cases alGet orchestrationMapping projectPk <;> simp
      | some oid =>
        simp only [hc]
        cases alGet orchestrationMapping projectPk <;> simp

/-! ## Secret-walk characterization (claims C2 and C10) -/

/-- Declarative description of a secret key sequence in a parameter tree: a
chain of dictionary keys none of which (except the last) is `#`-prefixed,
descending through dictionary values only and ending at the first
`#`-prefixed key of the branch. -/
inductive IsSecretSeq : List (String × JVal) → List String → Prop where
  | here {kvs : List (String × JVal)} {k : String} {v : JVal} :
      (k, v) ∈ kvs → startsWithHash k = true → IsSecretSeq kvs [k]
  | there {kvs sub : List (String × JVal)} {k : String} {ks : List String} :
      (k, JVal.obj sub) ∈ kvs → startsWithHash k = false →
      IsSecretSeq sub ks → IsSecretSeq kvs (k :: ks)

/-- Dotted-path joining as performed by the walk: extend a (possibly empty)
prefix by each key in turn, inserting dots after nonempty prefixes. -/
def joinPath (pre : String) (ks : List String) : String :=
  ks.foldl (fun a k => if a = "" then k else a ++ "." ++ k) pre

theorem IsSecretSeq.cons_of {kvs : List (String × JVal)} {ks : List String}
    (x : String × JVal) (h : IsSecretSeq kvs ks) : IsSecretSeq (x :: kvs) ks := by
  cases h with
  | here hmem hk => exact IsSecretSeq.here (List.mem_cons_of_mem _ hmem) hk
  | there hmem hk hsub => exact IsSecretSeq.there (List.mem_cons_of_mem _ hmem) hk hsub

theorem findSecret_of_hash (pre k : String) (v : JVal) (hk : startsWithHash k = true) :
    findSecret pre v k = [if pre = "" then k else pre ++ "." ++ k] := by
  rw [findSecret.eq_def]
  simp only [hk, if_true]

theorem findSecret_obj_of_not_hash (pre k : String) (kvs : List (String × JVal))
    (hk : ¬ startsWithHash k = true) :
    findSecret pre (JVal.obj kvs) k
      = findSecretList (if pre = "" then k else pre ++ "." ++ k) kvs := by
  have hk2 : startsWithHash k = false := by simpa using hk
  rw [findSecret.eq_def]
  simp only [hk2, Bool.false_eq_true, if_false]

theorem findSecret_eq_nil (pre k : String) (v : JVal) (hk : ¬ startsWithHash k = true)
    (hv : ∀ kvs, v ≠ JVal.obj kvs) : findSecret pre v k = [] := by
  have hk2 : startsWithHash k = false := by simpa using hk
  cases v with
  | obj kvs => exact absurd rfl (hv kvs)
  | null => rw [findSecret.eq_def]; simp only [hk2, Bool.false_eq_true, if_false]
  | bool b => rw [findSecret.eq_def]; simp only [hk2, Bool.false_eq_true, if_false]
  | num n => rw [findSecret.eq_def]; simp only [hk2, Bool.false_eq_true, if_false]
  | str s => rw [findSecret.eq_def]; simp only [hk2, Bool.false_eq_true, if_false]
  | arr xs => rw [findSecret.eq_def]; simp only [hk2, Bool.false_eq_true, if_false]

mutual

theorem mem_findSecret (pre k p : String) (v : JVal) :
    p ∈ findSecret pre v k ↔
      (startsWithHash k = true ∧ p = (if pre = "" then k else pre ++ "." ++ k)) ∨
      (startsWithHash k = false ∧ ∃ sub ks, v = JVal.obj sub ∧ IsSecretSeq sub ks
        ∧ p = joinPath (if pre = "" then k else pre ++ "." ++ k) ks) := by
  by_cases hk : startsWithHash k = true
  · rw [findSecret_of_hash pre k v hk]
    constructor
    · intro hp
      exact Or.inl ⟨hk, List.mem_singleton.mp hp⟩
    · rintro (⟨_, hp⟩ | ⟨hfalse, _⟩)
      · exact List.mem_singleton.mpr hp
      · exact absurd (hk.symm.trans hfalse) (by decide)
  · have hk2 : startsWithHash k = false := by simpa using hk
    cases v with
    | obj kvs =>
      rw [findSecret_obj_of_not_hash pre k kvs hk, mem_findSecretList _ p kvs]
      constructor
      · rintro ⟨ks, hseq, hp⟩
        exact Or.inr ⟨hk2, kvs, ks, rfl, hseq, hp⟩
      · rintro (⟨htrue, _⟩ | ⟨_, sub, ks, heq, hseq, hp⟩)
        · exact absurd (htrue.symm.trans hk2) (by decide)
        · cases heq
          exact ⟨ks, hseq, hp⟩
    | null =>
      rw [findSecret_eq_nil pre k _ hk (fun kvs h => JVal.noConfusion h)]
      constructor
      · intro hp
        exact absurd hp (List.not_mem_nil p)
      · rintro (⟨htrue, _⟩ | ⟨_, sub, ks, heq, _, _⟩)
        · exact absurd htrue hk
        · exact JVal.noConfusion heq
    | bool b =>
      rw [findSecret_eq_nil pre k _ hk (fun kvs h => JVal.noConfusion h)]
      constructor
      · intro hp
        exact absurd hp (List.not_mem_nil p)
      · rintro (⟨htrue, _⟩ | ⟨_, sub, ks, heq, _, _⟩)
        · exact absurd htrue hk
        · exact JVal.noConfusion heq
    | num n =>
      rw [findSecret_eq_nil pre k _ hk (fun kvs h => JVal.noConfusion h)]
      constructor
      · intro hp
        exact absurd hp (List.not_mem_nil p)
      · rintro (⟨htrue, _⟩ | ⟨_, sub, ks, heq, _, _⟩)
        · exact absurd htrue hk
        · exact JVal.noConfusion heq
    | str s =>
      rw [findSecret_eq_nil pre k _ hk (fun kvs h => JVal.noConfusion h)]
      constructor
      · intro hp
        exact absurd hp (List.not_mem_nil p)
      · rintro (⟨htrue, _⟩ | ⟨_, sub, ks, heq, _, _⟩)
        · exact absurd htrue hk
        · exact JVal.noConfusion heq
    | arr xs =>
      rw [findSecret_eq_nil pre k _ hk (fun kvs h => JVal.noConfusion h)]
      constructor
      · intro hp
        exact absurd hp (List.not_mem_nil p)
      · rintro (⟨htrue, _⟩ | ⟨_, sub, ks, heq, _, _⟩)
        · exact absurd htrue hk
        · exact JVal.noConfusion heq
termination_by sizeOf v

theorem mem_findSecretList (pre p : String) (kvs : List (String × JVal)) :
    p ∈ findSecretList pre kvs ↔ ∃ ks, IsSecretSeq kvs ks ∧ p = joinPath pre ks := by
  match kvs with
  | [] =>
    rw [findSecretList]
    constructor
    · intro hp
      exact absurd hp (List.not_mem_nil p)
    · rintro ⟨ks, hseq, _⟩
      cases hseq with
      | here hmem _ => exact absurd hmem (List.not_mem_nil _)
      | there hmem _ _ => exact absurd hmem (List.not_mem_nil _)
  | (k, v) :: rest =>
    rw [findSecretList, List.mem_append, mem_findSecret pre k p v,
      mem_findSecretList pre p rest]
    constructor
    · rintro ((⟨hk, hp⟩ | ⟨hk, sub, ks, hv, hseq, hp⟩) | ⟨ks, hseq, hp⟩)
      · exact ⟨[k], IsSecretSeq.here (List.mem_cons_self _ _) hk, hp⟩
      · subst hv
        exact ⟨k :: ks, IsSecretSeq.there (List.mem_cons_self _ _) hk hseq, hp⟩
      · exact ⟨ks, hseq.cons_of _, hp⟩
    · rintro ⟨ks, hseq, hp⟩
      cases hseq with
      | here hmem hk =>
        rcases List.mem_cons.mp hmem with heq | hrest
        · injection heq with hk0 hv0
          subst hk0
          exact Or.inl (Or.inl ⟨hk, hp⟩)
        · exact Or.inr ⟨_, IsSecretSeq.here hrest hk, hp⟩
      | there hmem hk hsub =>
        rcases List.mem_cons.mp hmem with heq | hrest
        · injection heq with hk0 hv0
          subst hk0
          exact Or.inl (Or.inr ⟨hk, _, _, hv0.symm, hsub, hp⟩)
        · exact Or.inr ⟨_, IsSecretSeq.there hrest hk hsub, hp⟩
termination_by sizeOf kvs

end

mutual

/-- Replacement of every array value by an empty array throughout a value
(descending through dictionaries), used to state that the secret walk never
looks inside arrays. -/
def scrubArrays : JVal → JVal
  | .arr _ => .arr []
  | .obj kvs => .obj (scrubArraysList kvs)
  | v => v
termination_by structural v => v

/-- Pointwise array scrubbing of a dictionary's entries. -/
def scrubArraysList : List (String × JVal) → List (String × JVal)
  | [] => []
  | (k, v) :: rest => (k, scrubArrays v) :: scrubArraysList rest
termination_by structural l => l

end

mutual

theorem findSecret_scrubArrays (pre k : String) (v : JVal) :
    findSecret pre (scrubArrays v) k = findSecret pre v k := by
  by_cases hk : startsWithHash k = true
  · rw [findSecret_of_hash _ _ _ hk, findSecret_of_hash _ _ _ hk]
  · cases v with
    | obj kvs =>
      rw [show scrubArrays (JVal.obj kvs) = JVal.obj (scrubArraysList kvs) from rfl,
        findSecret_obj_of_not_hash _ _ _ hk, findSecret_obj_of_not_hash _ _ _ hk]
      exact findSecretList_scrubArraysList _ kvs
    | arr xs =>
      rw [show scrubArrays (JVal.arr xs) = JVal.arr [] from rfl,
        findSecret_eq_nil _ _ _ hk (fun kvs h => JVal.noConfusion h),
        findSecret_eq_nil _ _ _ hk (fun kvs h => JVal.noConfusion h)]
    | null => rfl
    | bool b => rfl
    | num n => rfl
    | str s => rfl
termination_by sizeOf v

theorem findSecretList_scrubArraysList (pre : String) (kvs : List (String × JVal)) :
    findSecretList pre (scrubArraysList kvs) = findSecretList pre kvs := by
  match kvs with
  | [] => rfl
  | (k, v) :: rest =>
    rw [scrubArraysList, findSecretList, findSecretList,
      findSecret_scrubArrays pre k v, findSecretList_scrubArraysList pre rest]
termination_by sizeOf kvs

end

/-! ## Claim C2 -/

/-- C2: the secret-detection walk emits exactly the dotted paths of the
declarative secret key sequences (each branch is walked once, stopping at the
first `#`-prefixed key, which is emitted terminally whatever its value), and
on the concrete parameter tree of the test suite it returns exactly
`config.#secret1`, `#secret2` and `nested.l2.#secret3`, in walk order. -/
theorem retrieve_encrypted_properties_spec :
    (∀ (pre p : String) (kvs : List (String × JVal)),
      p ∈ findSecretList pre kvs ↔ ∃ ks, IsSecretSeq kvs ks ∧ p = joinPath pre ks)
    ∧ (∀ (pre k : String) (v : JVal), startsWithHash k = true →
        findSecret pre v k = [if pre = "" then k else pre ++ "." ++ k])
    ∧ retrieveEncryptedProperties
        (.obj [("configuration", .obj [("parameters", .obj
          [("api", .obj [("baseUrl", .str "")]),
           ("config", .obj [("nonsecret", .str "sss"), ("#secret1", .num 1234)]),
           ("#secret2", .num 123456),
           ("nested", .obj [("flat", .str ""),
             ("l2", .obj [("flat", .str ""), ("#secret3", .num 123456789)])])])])])
        = ["config.#secret1", "#secret2", "nested.l2.#secret3"] := by
  refine ⟨fun pre p kvs => mem_findSecretList pre p kvs, ?_, by decide⟩
  intro pre k v hk
  exact findSecret_of_hash pre k v hk

/-! ## Claim C10 -/

/-- C10: secret detection recurses only into dictionary values, never into
arrays: scrubbing every array in the parameter tree leaves the returned secret
paths unchanged, a non-secret key whose value is an array contributes nothing,
and on a concrete tree whose only `#`-prefixed key sits inside an array
element the walk returns no path at all. -/
theorem secret_detection_ignores_arrays :
    (∀ (parameters : List (String × JVal)),
      findSecretList "" (scrubArraysList parameters) = findSecretList "" parameters)
    ∧ (∀ (pre k : String) (xs : List JVal), startsWithHash k = false →
        findSecret pre (JVal.arr xs) k = [])
    ∧ retrieveEncryptedProperties
        (.obj [("configuration", .obj [("parameters", .obj
          [("a", .arr [.obj [("#listed", .num 1)]]),
           ("b", .str "x")])])])
        = [] := by
  refine ⟨fun parameters => findSecretList_scrubArraysList "" parameters, ?_, by decide⟩
  intro pre k xs hk
  exact findSecret_eq_nil pre k _ (by simp [hk]) (fun kvs h => JVal.noConfusion h)

/-! ## Authorization handling (`_skip_auth_properties`, `_filter_ignored_properties`) -/

/-- Python `v.get(k)` on a configuration value: `none` for a missing key or a
non-dictionary receiver. -/
def pyGet (v : JVal) (k : String) : Option JVal :=
  match v with
  | .obj kvs => alGet kvs k
  | _ => none

/-- Python `v[k] = nv` on a dictionary value (identity on non-dictionaries,
which the guarded call sites never reach). -/
def setObjKey (v : JVal) (k : String) (nv : JVal) : JVal :=
  match v with
  | .obj kvs => .obj (alSet kvs k nv)
  | _ => v

/-- The `root_config` dictionary handed to `_skip_auth_properties` and
`_filter_ignored_properties`: the full source configuration dictionaries keyed
`update` / `create`, with `none` for Python `None`. -/
structure RootConfigParts where
  update : Option JVal
  create : Option JVal

/-- The `authorization` value of a configuration dictionary, i.e.
`config.get('configuration', {}).get('authorization')`. -/
def authOf (configuration : JVal) : Option JVal :=
  (pyGet configuration "configuration").bind (fun conf => pyGet conf "authorization")

/-- Embedding of `Component._skip_auth_properties`: on a falsy or absent
create payload do nothing; otherwise, when
`create_config.get('configuration', {}).get('authorization')` is truthy,
overwrite it in place with the empty dictionary. -/
def skipAuthProperties (rootConfig : RootConfigParts) : RootConfigParts :=
  match rootConfig.create with
  | none => rootConfig
  | some createConfig =>
    if truthy createConfig then
      match pyGet createConfig "configuration" with
      | some conf =>
        match pyGet conf "authorization" with
        | some auth =>
          if truthy auth then
            { rootConfig with create := some (setObjKey createConfig "configuration"
                (setObjKey conf "authorization" (.obj []))) }
          else rootConfig
        | none => rootConfig
      | none => rootConfig
    else rootConfig

/-- Embedding of `Component._filter_ignored_properties`.  `operatorIgnored`
stands for the operator override list already looked up for this
configuration's key (`self.ignored_properties_cfg.get(key, [])`).  With no
destination the root config passes through; otherwise the ignored list is
built in code order — `authorization` first when the source's authorization
sub-tree is truthy, then the `parameters.`-prefixed operator overrides, then
the `parameters.`-prefixed detected secret paths — and replacement is
delegated to `_replace_ignored_properties`.  A missing `configuration` key
raises `KeyError` in the code, modelled as an error; a `None` update slot
would raise `TypeError` at `configuration['id']`, likewise an error. -/
def filterIgnoredProperties (dstConfig : Option JVal) (rootConfig : RootConfigParts)
    (operatorIgnored : List String) : Except Unit RootConfigParts :=
  match dstConfig with
  | none => .ok rootConfig
  | some dst =>
    match rootConfig.update with
    | none => .error ()
    | some configuration =>
      match pyGet configuration "configuration" with
      | none => .error ()
      | some conf =>
        let ignoredAuth : List String :=
          match pyGet conf "authorization" with
          | some auth => if truthy auth then ["authorization"] else []
          | none => []
        let ignoredParams := operatorIgnored.map (fun p => "parameters." ++ p)
        let secretParams :=
          (retrieveEncryptedProperties configuration).map (fun p => "parameters." ++ p)
        (replaceIgnoredProperties configuration dst
            (ignoredAuth ++ ignoredParams ++ secretParams)).map
          (fun row => { rootConfig with update := some row })

theorem pyGet_eq_some {v : JVal} {k : String} {x : JVal} (h : pyGet v k = some x) :
    ∃ kvs, v = .obj kvs ∧ alGet kvs k = some x := by
  cases v with
  | obj kvs => exact ⟨kvs, rfl, h⟩
  | null => exact Option.noConfusion h
  | bool b => exact Option.noConfusion h
  | num n => exact Option.noConfusion h
  | str s => exact Option.noConfusion h
  | arr xs => exact Option.noConfusion h

theorem splitDot_configuration (p : String) :
    splitDot ("configuration." ++ p) = "configuration" :: splitDot p := by
  show splitDotAux ("configuration." ++ p).data [] = _
  rw [String.data_append]
  rfl

theorem splitDot_parameters (p : String) :
    splitDot ("parameters." ++ p) = "parameters" :: splitDot p := by
  show splitDotAux ("parameters." ++ p).data [] = _
  rw [String.data_append]
  rfl

theorem replaceIgnoredStep_ok (originalConfig changed : JVal) (p : String) :
    replaceIgnoredStep originalConfig (.ok changed) p =
      match findValue (splitDot ("configuration." ++ p)) originalConfig with
      | .error e => .error e
      | .ok originalValue =>
        match findValue (splitDot ("configuration." ++ p)) changed with
        | .error e => .error e
        | .ok changedValue =>
          if truthy originalValue && truthy changedValue then
            replaceValue (splitDot ("configuration." ++ p)) changed originalValue
          else .ok changed := rfl

theorem replaceIgnoredStep_error (originalConfig : JVal) (e : Unit) (p : String) :
    replaceIgnoredStep originalConfig (.error e) p = .error e := rfl

theorem foldl_replaceIgnoredStep_error (originalConfig : JVal) (paths : List String) (e : Unit) :
    paths.foldl (replaceIgnoredStep originalConfig) (.error e) = .error e := by
  induction paths with
  | nil => rfl
  | cons p rest ih => rw [List.foldl_cons, replaceIgnoredStep_error, ih]

theorem pyGet_replaceValue_other {k2 : String} {ks : List String} {child v child2 : JVal}
    (h : replaceValue (k2 :: ks) child v = .ok child2) (key : String) (hkey : k2 ≠ key) :
    pyGet child2 key = pyGet child key := by
  cases ks with
  | nil =>
    cases child with
    | obj kvs2 =>
      simp only [replaceValue, Except.ok.injEq] at h
      rw [← h]
      exact alGet_alSet_other kvs2 k2 key v hkey
    | null => exact Except.noConfusion h
    | bool b => exact Except.noConfusion h
    | num n => exact Except.noConfusion h
    | str s => exact Except.noConfusion h
    | arr xs => exact Except.noConfusion h
  | cons k3 ks2 =>
    cases child with
    | obj kvs2 =>
      simp only [replaceValue] at h
      cases hg : alGet kvs2 k2 with
      | none =>
        simp only [hg] at h
        exact Except.noConfusion h
      | some g =>
        simp only [hg] at h
        cases hrep : replaceValue (k3 :: ks2) g v with
        | error e =>
          simp only [hrep] at h
          exact Except.noConfusion h
        | ok g2 =>
          simp only [hrep, Except.ok.injEq] at h
          rw [← h]
          exact alGet_alSet_other kvs2 k2 key g2 hkey
    | null => exact Except.noConfusion h
    | bool b => exact Except.noConfusion h
    | num n => exact Except.noConfusion h
    | str s => exact Except.noConfusion h
    | arr xs => exact Except.noConfusion h

theorem authOf_replaceValue {k2 : String} (hk2 : k2 ≠ "authorization") (ks : List String)
    (c v c2 : JVal) (h : replaceValue ("configuration" :: k2 :: ks) c v = .ok c2) :
    authOf c2 = authOf c := by
  cases c with
  | obj kvs =>
    simp only [replaceValue] at h
    cases hchild : alGet kvs "configuration" with
    | none =>
      simp only [hchild] at h
      exact Except.noConfusion h
    | some child =>
      simp only [hchild] at h
      cases hrep : replaceValue (k2 :: ks) child v with
      | error e =>
        simp only [hrep] at h
        exact Except.noConfusion h
      | ok child2 =>
        simp only [hrep, Except.ok.injEq] at h
        rw [← h]
        simp only [authOf, pyGet, alGet_alSet_same, hchild, Option.some_bind]
        exact pyGet_replaceValue_other hrep "authorization" hk2
  | null => exact Except.noConfusion h
  | bool b => exact Except.noConfusion h
  | num n => exact Except.noConfusion h
  | str s => exact Except.noConfusion h
  | arr xs => exact Except.noConfusion h

theorem authOf_replaceIgnoredStep_parameters (dst c c2 : JVal) (q : String)
    (h : replaceIgnoredStep dst (.ok c) ("parameters." ++ q) = .ok c2) :
    authOf c2 = authOf c := by
  rw [replaceIgnoredStep_ok, splitDot_configuration, splitDot_parameters] at h
  cases hov : findValue ("configuration" :: "parameters" :: splitDot q) dst with
  | error e =>
    simp only [hov] at h
    exact Except.noConfusion h
  | ok ov =>
    simp only [hov] at h
    cases hcv : findValue ("configuration" :: "parameters" :: splitDot q) c with
    | error e =>
      simp only [hcv] at h
      exact Except.noConfusion h
    | ok cv =>
      simp only [hcv] at h
      by_cases hg : (truthy ov && truthy cv) = true
      · rw [if_pos hg] at h
        exact authOf_replaceValue (by decide) (splitDot q) c ov c2 h
      · rw [if_neg hg, Except.ok.injEq] at h
        rw [← h]

theorem authOf_foldl_parameters (dst : JVal) (paths : List String)
    (hp : ∀ p ∈ paths, ∃ q, p = "parameters." ++ q) :
    ∀ (c r : JVal), paths.foldl (replaceIgnoredStep dst) (.ok c) = .ok r →
      authOf r = authOf c := by
  induction paths with
  | nil =>
    intro c r h
    rw [List.foldl_nil, Except.ok.injEq] at h
    rw [h]
  | cons p rest ih =>
    intro c r h
    rw [List.foldl_cons] at h
    cases hstep : replaceIgnoredStep dst (.ok c) p with
    | error e =>
      rw [hstep, foldl_replaceIgnoredStep_error] at h
      exact Except.noConfusion h
    | ok c1 =>
      rw [hstep] at h
      obtain ⟨q, hq⟩ := hp p (List.mem_cons_self _ _)
      subst hq
      have h1 := authOf_replaceIgnoredStep_parameters dst c c1 q hstep
      have h2 := ih (fun p2 hmem => hp p2 (List.mem_cons_of_mem _ hmem)) c1 r h
      rw [h2, h1]

/-! ## Claim C4 -/

/-- C4: contrary to the tolerant-lookup description, a missing key along an
ignored path is not always tolerated.  With ignored path `x.y`, a changed
snapshot lacking `x` and an original resolving `x.y` to a non-empty value,
`find_value` breaks out and returns the truthy partially-resolved parent, so
`replace_value` is reached and raises `KeyError` (first conjunct); and when
only the final key is missing in the changed snapshot, a replacement is
performed even though the path did not resolve there, inserting the original's
value (second conjunct). -/
theorem replace_ignored_missing_key_behaviour :
    replaceIgnoredProperties
      (.obj [("configuration", .obj [("q", .num 1)])])
      (.obj [("configuration", .obj [("x", .obj [("y", .num 5)])])])
      ["x.y"] = .error ()
    ∧ replaceIgnoredProperties
      (.obj [("configuration", .obj [("x", .obj [("c", .num 1)])])])
      (.obj [("configuration", .obj [("x", .obj [("y", .num 5)])])])
      ["x.y"]
      = .ok (.obj [("configuration", .obj [("x", .obj [("c", .num 1), ("y", .num 5)])])]) :=
  ⟨rfl, rfl⟩

/-! ## Claim C3 -/

/-- C3 counterexample: on update with a present but empty destination
authorization sub-tree, the source's non-empty authorization passes through
`_filter_ignored_properties` unchanged — it is propagated to the destination,
not excluded. -/
theorem authorization_propagated_on_empty_destination :
    filterIgnoredProperties
      (some (.obj [("id", .str "1"), ("configuration", .obj
        [("authorization", .obj []), ("parameters", .obj [("x", .num 2)])])]))
      ⟨some (.obj [("id", .str "1"), ("configuration", .obj
        [("authorization", .obj [("oauth", .str "s")]),
         ("parameters", .obj [("x", .num 1)])])]), none⟩
      []
      = .ok ⟨some (.obj [("id", .str "1"), ("configuration", .obj
        [("authorization", .obj [("oauth", .str "s")]),
         ("parameters", .obj [("x", .num 1)])])]), none⟩
    ∧ authOf (.obj [("id", .str "1"), ("configuration", .obj
        [("authorization", .obj [("oauth", .str "s")]),
         ("parameters", .obj [("x", .num 1)])])])
      = some (.obj [("oauth", .str "s")])
    ∧ truthy (.obj [("oauth", .str "s")]) = true
    ∧ authOf (.obj [("id", .str "1"), ("configuration", .obj
        [("authorization", .obj []), ("parameters", .obj [("x", .num 2)])])])
      = some (.obj []) := ⟨rfl, rfl, rfl, rfl⟩

/-- C3 (amended): a freshly created root configuration never carries a truthy
authorization sub-tree (it is zeroed or already empty); on update, the
destination's authorization value is kept whenever both the source's and the
destination's authorization values are non-empty — but only then, as the
counterexample with an empty destination authorization shows. -/
theorem authorization_zeroed_on_create_kept_when_both_truthy :
    (∀ (rootConfig : RootConfigParts) (c : JVal),
      (skipAuthProperties rootConfig).create = some c →
      ∀ a, authOf c = some a → truthy a = false)
    ∧ (∀ (dst configuration srcAuth dstAuth : JVal) (rootConfig : RootConfigParts)
        (operatorIgnored : List String) (r : RootConfigParts),
        rootConfig.update = some configuration →
        authOf configuration = some srcAuth → truthy srcAuth = true →
        authOf dst = some dstAuth → truthy dstAuth = true →
        filterIgnoredProperties (some dst) rootConfig operatorIgnored = .ok r →
        ∃ u, r.update = some u ∧ authOf u = some dstAuth) := by
  constructor
  · intro rc c h a ha
    cases hc : rc.create with
    | none =>
      unfold skipAuthProperties at h
      simp only [hc] at h
      exact Option.noConfusion h
    | some createConfig =>
      unfold skipAuthProperties at h
      simp only [hc] at h
      by_cases ht : truthy createConfig = true
      · rw [if_pos ht] at h
        cases hconf : pyGet createConfig "configuration" with
        | none =>
          simp only [hconf, hc, Option.some.injEq] at h
          subst h
          rw [authOf, hconf, Option.none_bind] at ha
          exact Option.noConfusion ha
        | some conf =>
          simp only [hconf] at h
          cases hauth : pyGet conf "authorization" with
          | none =>
            simp only [hauth, hc, Option.some.injEq] at h
            subst h
            rw [authOf, hconf, Option.some_bind, hauth] at ha
            exact Option.noConfusion ha
          | some auth =>
            simp only [hauth] at h
            by_cases hta : truthy auth = true
            · rw [if_pos hta] at h
              simp only [Option.some.injEq] at h
              subst h
              obtain ⟨kvs, hkvs, hget⟩ := pyGet_eq_some hconf
              obtain ⟨ckvs, hckvs, hget2⟩ := pyGet_eq_some hauth
              subst hkvs
              subst hckvs
              rw [authOf] at ha
              simp only [setObjKey, pyGet, alGet_alSet_same, Option.some_bind,
                Option.some.injEq] at ha
              rw [← ha]
              rfl
            · rw [if_neg hta] at h
              simp only [hc, Option.some.injEq] at h
              subst h
              rw [authOf, hconf, Option.some_bind, hauth, Option.some.injEq] at ha
              subst ha
              simpa using hta
      · rw [if_neg ht] at h
        simp only [hc, Option.some.injEq] at h
        subst h
        have hnone : authOf createConfig = none := by
          cases createConfig with
          | obj kvs =>
            cases kvs with
            | nil => rfl
            | cons hd tl => exact absurd rfl ht
          | null => rfl
          | bool b =>
            cases b with
            | false => rfl
            | true => exact absurd rfl ht
          | num n => rfl
          | str s => rfl
          | arr xs => rfl
        rw [hnone] at ha
        exact Option.noConfusion ha
  · intro dst configuration srcAuth dstAuth rc operatorIgnored r hupd hsrc hts hdst htd hfilter
    obtain ⟨conf, hconf, hconfAuth⟩ := Option.bind_eq_some.mp hsrc
    obtain ⟨dconf, hdconf, hdconfAuth⟩ := Option.bind_eq_some.mp hdst
    obtain ⟨kvs, hkvseq, halconf⟩ := pyGet_eq_some hconf
    obtain ⟨ckvs, hckvseq, halauth⟩ := pyGet_eq_some hconfAuth
    obtain ⟨dkvs, hdkvseq, haldconf⟩ := pyGet_eq_some hdconf
    obtain ⟨dckvs, hdckvseq, haldauth⟩ := pyGet_eq_some hdconfAuth
    have hignored :
        (match pyGet conf "authorization" with
          | some auth => if truthy auth then ["authorization"] else []
          | none => ([] : List String)) = ["authorization"] := by
      simp only [hconfAuth]
      exact if_pos hts
    unfold filterIgnoredProperties at hfilter
    simp only [hupd, hconf, hignored, List.cons_append, List.nil_append] at hfilter
    cases hfold : replaceIgnoredProperties configuration dst
        ("authorization" :: (operatorIgnored.map (fun p => "parameters." ++ p)
          ++ (retrieveEncryptedProperties configuration).map (fun p => "parameters." ++ p)))
      with
    | error e =>
      rw [hfold] at hfilter
      exact Except.noConfusion hfilter
    | ok row =>
      rw [hfold] at hfilter
      simp only [Except.map, Except.ok.injEq] at hfilter
      refine ⟨row, ?_, ?_⟩
      · rw [← hfilter]
      · unfold replaceIgnoredProperties at hfold
        rw [List.foldl_cons] at hfold
        have hkeys : splitDot ("configuration." ++ "authorization")
            = ["configuration", "authorization"] := by decide
        have hfinddst : findValue ["configuration", "authorization"] dst = .ok dstAuth := by
          rw [hdkvseq]
          simp only [findValue, haldconf]
          rw [hdckvseq]
          simp only [findValue, haldauth]
        have hfindsrc : findValue ["configuration", "authorization"] configuration
            = .ok srcAuth := by
          rw [hkvseq]
          simp only [findValue, halconf]
          rw [hckvseq]
          simp only [findValue, halauth]
        have hrepl : replaceValue ["configuration", "authorization"] configuration dstAuth
            = .ok (.obj (alSet kvs "configuration"
                (.obj (alSet ckvs "authorization" dstAuth)))) := by
          rw [hkvseq]
          simp only [replaceValue, halconf]
          rw [hckvseq]
        have hguard : (truthy dstAuth && truthy srcAuth) = true := by
          rw [htd, hts]
          rfl
        have hstep1 : replaceIgnoredStep dst (.ok configuration) "authorization"
            = .ok (.obj (alSet kvs "configuration"
                (.obj (alSet ckvs "authorization" dstAuth)))) := by
          rw [replaceIgnoredStep_ok, hkeys]
          simp only [hfinddst, hfindsrc]
          rw [if_pos hguard]
          exact hrepl
        rw [hstep1] at hfold
        have hrest : ∀ p ∈ operatorIgnored.map (fun p => "parameters." ++ p)
            ++ (retrieveEncryptedProperties configuration).map (fun p => "parameters." ++ p),
            ∃ q, p = "parameters." ++ q := by
          intro p hp
          rcases List.mem_append.mp hp with hmem | hmem
          · obtain ⟨q, _, hq⟩ := List.mem_map.mp hmem
            exact ⟨q, hq.symm⟩
          · obtain ⟨q, _, hq⟩ := List.mem_map.mp hmem
            exact ⟨q, hq.symm⟩
        have hpres := authOf_foldl_parameters dst _ hrest _ row hfold
        rw [hpres]
        rw [authOf]
        simp only [pyGet, alGet_alSet_same, Option.some_bind]

/-- C3 witness: the create half applied to a configuration whose authorization
is zeroed, and the update half applied at concrete both-non-empty snapshots. -/
theorem authorization_zeroed_on_create_kept_when_both_truthy_witness :
    truthy (.obj []) = false
    ∧ ∃ u, (⟨some (.obj [("configuration", .obj
          [("authorization", .obj [("b", .num 2)])])]), none⟩ : RootConfigParts).update = some u
        ∧ authOf u = some (.obj [("b", .num 2)]) :=
  ⟨authorization_zeroed_on_create_kept_when_both_truthy.1
      ⟨none, some (.obj [("configuration", .obj [("authorization", .obj [("t", .num 1)])])])⟩
      (.obj [("configuration", .obj [("authorization", .obj [])])]) rfl (.obj []) rfl,
   authorization_zeroed_on_create_kept_when_both_truthy.2
      (.obj [("configuration", .obj [("authorization", .obj [("b", .num 2)])])])
      (.obj [("configuration", .obj [("authorization", .obj [("a", .num 1)])])])
      (.obj [("a", .num 1)]) (.obj [("b", .num 2)])
      ⟨some (.obj [("configuration", .obj [("authorization", .obj [("a", .num 1)])])]), none⟩
      [] ⟨some (.obj [("configuration", .obj
        [("authorization", .obj [("b", .num 2)])])]), none⟩
      rfl rfl rfl rfl rfl rfl⟩

/-! ## Orchestration reordering (`_order_orchestration_by_link`) -/

/-- One entry of an orchestration's task list as read by the reordering pass:
the `component` field and the `actionParameters.config` reference, modelled as
an integer (the code compares with `int(...)` on both sides, and Python's
`int`/`str` conversions between decimal representations are identities under
this model). -/
structure OrchTask where
  component : String
  config : Int

/-- An orchestration configuration as consumed by
`_order_orchestration_by_link`: its integer id, the task list of its
`configuration` sub-tree (`c['configuration'].get('tasks', [])`), and the rest
of its payload. -/
structure Orchestration where
  id : Int
  tasks : List OrchTask
  body : JVal

/-- Embedding of `Component._pop_orchestration_id_from_list`: find the first
element whose id matches; pop and return it only when `if pop_index:` is
truthy, which is false both for no match (`None`) and for a match at index
zero. -/
def popOrchestrationIdFromList (orchestrations : List Orchestration)
    (orchestrationId : Int) : Option Orchestration × List Orchestration :=
  match orchestrations.findIdx? (fun o => o.id == orchestrationId) with
  | some 0 => (none, orchestrations)
  | some (i + 1) => (orchestrations.get? (i + 1), orchestrations.eraseIdx (i + 1))
  | none => (none, orchestrations)

/-- One task of the loop body of `Component._order_orchestration_by_link`:
for an orchestrator-type task, pop the referenced configuration out of the
`non_prio` list and append it to the `prio` list when found (a popped
orchestration dictionary carries its id and is never empty, so `if cfg:` is
its some-ness); other tasks change nothing. -/
def orderInnerStep (st2 : List Orchestration × List Orchestration)
    (task : OrchTask) : List Orchestration × List Orchestration :=
  if task.component = "orchestrator" then
    match popOrchestrationIdFromList st2.1 task.config with
    | (some cfg, rest) => (rest, st2.2 ++ [cfg])
    | (none, rest) => (rest, st2.2)
  else st2

/-- Embedding of `Component._order_orchestration_by_link`: starting from a
copy of the input as `non_prio` and an empty `prio`, walk every configuration
of the input and every task of its task list with `orderInnerStep`; the result
is the `prio` list extended with the remaining `non_prio` list. -/
def orderOrchestrationByLink (orchestrations : List Orchestration) :
    List Orchestration :=
  let fin := orchestrations.foldl
    (fun st c => c.tasks.foldl orderInnerStep st)
    (orchestrations, [])
  fin.2 ++ fin.1

/-- A configuration with at least one orchestrator-type task (a referencing
configuration). -/
def hasOrchTaskB (c : Orchestration) : Bool :=
  c.tasks.any (fun t => t.component == "orchestrator")

/-- The configuration `c` references the orchestration `d` by id through an
orchestrator-type task. -/
def RefersTo (c d : Orchestration) : Prop :=
  ∃ t ∈ c.tasks, t.component = "orchestrator" ∧ t.config = d.id

/-- Some configuration of `l` references `d` (inbound dependency). -/
def inboundB (l : List Orchestration) (d : Orchestration) : Bool :=
  l.any (fun c => c.tasks.any
    (fun t => t.component == "orchestrator" && t.config == d.id))

/-- The element `d` occurs strictly before `c` in `xs`. -/
def BeforeIn (xs : List Orchestration) (d c : Orchestration) : Prop :=
  ∃ xs1 xs2, xs = xs1 ++ xs2 ∧ d ∈ xs1 ∧ c ∈ xs2

theorem pop_cases (l : List Orchestration) (oid : Int) :
    popOrchestrationIdFromList l oid = (none, l)
    ∨ ∃ m i, popOrchestrationIdFromList l oid = (some m, l.eraseIdx (i + 1))
        ∧ l.findIdx? (fun o => o.id == oid) = some (i + 1)
        ∧ l.get? (i + 1) = some m ∧ m.id = oid := by
  unfold popOrchestrationIdFromList
  cases hf : l.findIdx? (fun o => o.id == oid) with
  | none => exact Or.inl rfl
  | some j =>
    cases j with
    | zero => exact Or.inl rfl
    | succ i =>
      obtain ⟨hlen, hp, _⟩ := List.findIdx?_eq_some_iff_getElem.mp hf
      have hget : l.get? (i + 1) = some (l.get ⟨i + 1, hlen⟩) := by
        rw [List.get?_eq_getElem?, List.getElem?_eq_getElem hlen]
        rfl
      refine Or.inr ⟨l.get ⟨i + 1, hlen⟩, i, ?_, rfl, hget, by simpa using hp⟩
      show (l.get? (i + 1), l.eraseIdx (i + 1))
        = (some (l.get ⟨i + 1, hlen⟩), l.eraseIdx (i + 1))
      rw [hget]

theorem pop_none_snd {l : List Orchestration} {oid : Int} {l2 : List Orchestration}
    (h : popOrchestrationIdFromList l oid = (none, l2)) : l2 = l := by
  rcases pop_cases l oid with hcase | ⟨m, i, hcase, _, _, _⟩
  · rw [hcase] at h
    injection h with h1 h2
    exact h2.symm
  · rw [hcase] at h
    injection h with h1 h2
    exact Option.noConfusion h1

theorem pop_some_facts {l : List Orchestration} {oid : Int} {m : Orchestration}
    {l2 : List Orchestration}
    (h : popOrchestrationIdFromList l oid = (some m, l2)) :
    m ∈ l ∧ m.id = oid ∧ (m :: l2).Perm l ∧ List.Sublist l2 l := by
  rcases pop_cases l oid with hcase | ⟨m2, i, hcase, hf, hget, hid⟩
  · rw [hcase] at h
    injection h with h1 h2
    exact Option.noConfusion h1
  · rw [hcase] at h
    injection h with h1 h2
    injection h1 with h1
    subst h2
    rw [← h1]
    obtain ⟨hlen, hgetm⟩ := List.get?_eq_some.mp hget
    refine ⟨hgetm ▸ List.get_mem l _ _, hid, ?_, List.eraseIdx_sublist l (i + 1)⟩
    rw [List.eraseIdx_eq_take_drop_succ]
    have hsplit : l.take (i + 1) ++ l.drop (i + 1) = l := List.take_append_drop _ l
    have hdrop : l.drop (i + 1) = l.get ⟨i + 1, hlen⟩ :: l.drop (i + 2) := by
      rw [List.drop_eq_getElem_cons hlen]
      rfl
    have hperm1 : (m2 :: (l.take (i + 1) ++ l.drop (i + 2))).Perm
        (l.take (i + 1) ++ m2 :: l.drop (i + 2)) := List.perm_middle.symm
    have heq : l.take (i + 1) ++ m2 :: l.drop (i + 2) = l := by
      rw [← hgetm, ← hdrop, hsplit]
    have hperm2 : (l.take (i + 1) ++ m2 :: l.drop (i + 2)).Perm l := by
      rw [heq]
    exact hperm1.trans hperm2

theorem pop_found_of_mem {l : List Orchestration} {oid : Int} {d : Orchestration}
    (hmem : d ∈ l) (hid : d.id = oid)
    (huniq : ∀ e ∈ l, e.id = oid → e = d) :
    (∃ l2, popOrchestrationIdFromList l oid = (some d, l2))
    ∨ (∃ tail, l = d :: tail ∧ popOrchestrationIdFromList l oid = (none, l)) := by
  cases hf : l.findIdx? (fun o => o.id == oid) with
  | none =>
    rw [List.findIdx?_eq_none_iff] at hf
    exact absurd (by simpa using hf d hmem) (by simp [hid])
  | some j =>
    obtain ⟨hlen, hp, _⟩ := List.findIdx?_eq_some_iff_getElem.mp hf
    have hjd : l.get ⟨j, hlen⟩ = d :=
      huniq _ (List.get_mem l _ _) (by simpa using hp)
    cases j with
    | zero =>
      right
      refine ⟨l.drop 1, ?_, ?_⟩
      · have h0 : l.drop 0 = l.get ⟨0, hlen⟩ :: l.drop 1 := by
          rw [List.drop_eq_getElem_cons hlen]
          rfl
        rw [List.drop_zero] at h0
        rw [← hjd]
        exact h0
      · unfold popOrchestrationIdFromList
        rw [hf]
    | succ i =>
      left
      refine ⟨l.eraseIdx (i + 1), ?_⟩
      unfold popOrchestrationIdFromList
      rw [hf]
      show (l.get? (i + 1), l.eraseIdx (i + 1)) = (some d, l.eraseIdx (i + 1))
      rw [List.get?_eq_getElem?, List.getElem?_eq_getElem hlen]
      rw [show l[i + 1] = d from hjd]

/-- Invariant of the reordering fold: the remaining `non_prio` list is a
sublist of the input, `prio ++ non_prio` is a permutation of the input, every
referencing configuration is still in `non_prio`, and every popped
configuration is referenced by some configuration of the input. -/
def OrderInv (l : List Orchestration)
    (st : List Orchestration × List Orchestration) : Prop :=
  List.Sublist st.1 l
  ∧ (st.2 ++ st.1).Perm l
  ∧ (∀ c0 ∈ l, hasOrchTaskB c0 = true → c0 ∈ st.1)
  ∧ (∀ x ∈ st.2, ∃ c0 ∈ l, RefersTo c0 x)

theorem hasOrchTaskB_of_task {c : Orchestration} {t : OrchTask} (ht : t ∈ c.tasks)
    (hcomp : t.component = "orchestrator") : hasOrchTaskB c = true := by
  rw [hasOrchTaskB, List.any_eq_true]
  exact ⟨t, ht, by simp [hcomp]⟩

theorem id_inj {l : List Orchestration} (hnd : (l.map (fun o => o.id)).Nodup)
    {a b : Orchestration} (ha : a ∈ l) (hb : b ∈ l) (h : a.id = b.id) : a = b :=
  List.inj_on_of_nodup_map hnd ha hb h

theorem inboundB_of_refers {l : List Orchestration} {x c0 : Orchestration}
    (hc0 : c0 ∈ l) (href : RefersTo c0 x) : inboundB l x = true := by
  obtain ⟨t, ht, hcomp, hcfg⟩ := href
  rw [inboundB, List.any_eq_true]
  refine ⟨c0, hc0, ?_⟩
  rw [List.any_eq_true]
  exact ⟨t, ht, by simp [hcomp, hcfg]⟩

theorem orderInnerStep_inv {l : List Orchestration}
    (hnd : (l.map (fun o => o.id)).Nodup)
    (hd1 : ∀ c ∈ l, ∀ d ∈ l, RefersTo c d → hasOrchTaskB d = false)
    {c : Orchestration} (hc : c ∈ l) {t : OrchTask} (ht : t ∈ c.tasks)
    {st : List Orchestration × List Orchestration} (hinv : OrderInv l st) :
    OrderInv l (orderInnerStep st t)
    ∧ (∀ x ∈ st.2, x ∈ (orderInnerStep st t).2)
    ∧ (t.component = "orchestrator" → ∀ d ∈ l, d.id = t.config →
        d ∈ (orderInnerStep st t).2 ∨ BeforeIn l d c) := by
  obtain ⟨hsub, hperm, href, hpop⟩ := hinv
  by_cases hcomp : t.component = "orchestrator"
  · rcases pop_cases st.1 t.config with hpopres | ⟨m, i, hpopres, hf, hget, hmid⟩
    · simp only [orderInnerStep, if_pos hcomp, hpopres]
      refine ⟨⟨hsub, hperm, href, hpop⟩, fun x hx => hx, ?_⟩
      intro _ d hd hdid
      by_cases hdnp : d ∈ st.1
      · have huniq : ∀ e ∈ st.1, e.id = t.config → e = d := by
          intro e he heid
          exact id_inj hnd (hsub.subset he) hd (by rw [heid, hdid])
        rcases pop_found_of_mem hdnp hdid huniq with ⟨l2, hfound⟩ | ⟨tail, hhead, _⟩
        · rw [hpopres] at hfound
          injection hfound with h1 h2
          exact Option.noConfusion h1
        · right
          have hcnp : c ∈ st.1 := href c hc (hasOrchTaskB_of_task ht hcomp)
          have hcd : c ≠ d := by
            intro heq
            have hdno : hasOrchTaskB d = false := hd1 c hc d hd ⟨t, ht, hcomp, hdid.symm⟩
            have h1 := hasOrchTaskB_of_task ht hcomp
            rw [heq, hdno] at h1
            exact Bool.noConfusion h1
          have hctail : c ∈ tail := by
            rw [hhead] at hcnp
            rcases List.mem_cons.mp hcnp with h | h
            · exact absurd h hcd
            · exact h
          have hsub2 : List.Sublist ([d] ++ tail) l := by
            rw [List.singleton_append, ← hhead]
            exact hsub
          obtain ⟨r1, r2, hr, hds, hts⟩ := List.append_sublist_iff.mp hsub2
          exact ⟨r1, r2, hr, hds.subset (List.mem_singleton.mpr rfl), hts.subset hctail⟩
      · left
        have hmem2 : d ∈ st.2 ++ st.1 := hperm.mem_iff.mpr hd
        rcases List.mem_append.mp hmem2 with h | h
        · exact h
        · exact absurd h hdnp
    · obtain ⟨hmem, hmid2, hpermpop, hsubpop⟩ := pop_some_facts hpopres
      have hmref : RefersTo c m := ⟨t, ht, hcomp, hmid2.symm⟩
      have hmnotask : hasOrchTaskB m = false := hd1 c hc m (hsub.subset hmem) hmref
      simp only [orderInnerStep, if_pos hcomp, hpopres]
      refine ⟨⟨?_, ?_, ?_, ?_⟩, ?_, ?_⟩
      · exact (List.eraseIdx_sublist st.1 (i + 1)).trans hsub
      · have h2 : (st.2 ++ (m :: st.1.eraseIdx (i + 1))).Perm l :=
          (List.Perm.append_left st.2 hpermpop).trans hperm
        rw [List.append_assoc, List.singleton_append]
        exact h2
      · intro c0 hc0 hc0task
        have hc0np : c0 ∈ st.1 := href c0 hc0 hc0task
        have hc0m : c0 ≠ m := by
          intro heq
          rw [heq, hmnotask] at hc0task
          exact Bool.noConfusion hc0task
        rcases List.mem_cons.mp (hpermpop.mem_iff.mpr hc0np) with h | h
        · exact absurd h hc0m
        · exact h
      · intro x hx
        rcases List.mem_append.mp hx with h | h
        · exact hpop x h
        · rw [List.mem_singleton] at h
          subst h
          exact ⟨c, hc, hmref⟩
      · intro x hx
        exact List.mem_append_left _ hx
      · intro _ d hd hdid
        left
        by_cases hdm : d = m
        · subst hdm
          exact List.mem_append_right _ (List.mem_singleton.mpr rfl)
        · by_cases hdnp : d ∈ st.1
          · exact absurd (id_inj hnd hd (hsub.subset hmem) (by rw [hdid, hmid2])) hdm
          · have hmem2 : d ∈ st.2 ++ st.1 := hperm.mem_iff.mpr hd
            rcases List.mem_append.mp hmem2 with h | h
            · exact List.mem_append_left _ h
            · exact absurd h hdnp
  · simp only [orderInnerStep, if_neg hcomp]
    exact ⟨⟨hsub, hperm, href, hpop⟩, fun x hx => hx, fun hcomp2 => absurd hcomp2 hcomp⟩

theorem inner_fold_inv {l : List Orchestration}
    (hnd : (l.map (fun o => o.id)).Nodup)
    (hd1 : ∀ c ∈ l, ∀ d ∈ l, RefersTo c d → hasOrchTaskB d = false)
    {c : Orchestration} (hc : c ∈ l) :
    ∀ (tasks : List OrchTask), (∀ t ∈ tasks, t ∈ c.tasks) →
    ∀ st, OrderInv l st →
    OrderInv l (tasks.foldl orderInnerStep st)
    ∧ (∀ x ∈ st.2, x ∈ (tasks.foldl orderInnerStep st).2)
    ∧ (∀ t ∈ tasks, t.component = "orchestrator" → ∀ d ∈ l, d.id = t.config →
        d ∈ (tasks.foldl orderInnerStep st).2 ∨ BeforeIn l d c) := by
  intro tasks
  induction tasks with
  | nil =>
    intro _ st hinv
    exact ⟨hinv, fun x hx => hx, fun t ht => absurd ht (List.not_mem_nil t)⟩
  | cons t rest ih =>
    intro htasks st hinv
    rw [List.foldl_cons]
    have hstep := orderInnerStep_inv hnd hd1 hc (htasks t (List.mem_cons_self _ _)) hinv
    have hrest := ih (fun t2 ht2 => htasks t2 (List.mem_cons_of_mem _ ht2))
      (orderInnerStep st t) hstep.1
    refine ⟨hrest.1, fun x hx => hrest.2.1 x (hstep.2.1 x hx), ?_⟩
    intro t2 ht2 hcomp2 d hd hdid
    rcases List.mem_cons.mp ht2 with heq | hmem
    · subst heq
      rcases hstep.2.2 hcomp2 d hd hdid with h | h
      · exact Or.inl (hrest.2.1 d h)
      · exact Or.inr h
    · exact hrest.2.2 t2 hmem hcomp2 d hd hdid

theorem outer_fold_inv {l : List Orchestration}
    (hnd : (l.map (fun o => o.id)).Nodup)
    (hd1 : ∀ c ∈ l, ∀ d ∈ l, RefersTo c d → hasOrchTaskB d = false) :
    ∀ (todo : List Orchestration), (∀ x ∈ todo, x ∈ l) →
    ∀ st, OrderInv l st →
    OrderInv l (todo.foldl (fun st2 c => c.tasks.foldl orderInnerStep st2) st)
    ∧ (∀ x ∈ st.2, x ∈ (todo.foldl (fun st2 c => c.tasks.foldl orderInnerStep st2) st).2)
    ∧ (∀ c ∈ todo, ∀ d ∈ l, RefersTo c d →
        d ∈ (todo.foldl (fun st2 c => c.tasks.foldl orderInnerStep st2) st).2
        ∨ BeforeIn l d c) := by
  intro todo
  induction todo with
  | nil =>
    intro _ st hinv
    exact ⟨hinv, fun x hx => hx, fun c hcmem => absurd hcmem (List.not_mem_nil c)⟩
  | cons c rest ih =>
    intro htodo st hinv
    rw [List.foldl_cons]
    have hc : c ∈ l := htodo c (List.mem_cons_self _ _)
    have hinner := inner_fold_inv hnd hd1 hc c.tasks (fun _ h => h) st hinv
    have hrest := ih (fun x hx => htodo x (List.mem_cons_of_mem _ hx)) _ hinner.1
    refine ⟨hrest.1, fun x hx => hrest.2.1 x (hinner.2.1 x hx), ?_⟩
    intro c2 hc2 d hd href
    rcases List.mem_cons.mp hc2 with heq | hmem
    · subst heq
      obtain ⟨t, ht, hcomp, hcfg⟩ := href
      rcases hinner.2.2 t ht hcomp d hd hcfg.symm with h | h
      · exact Or.inl (hrest.2.1 d h)
      · exact Or.inr h
    · exact hrest.2.2 c2 hmem d hd href

theorem beforeIn_of_sublist {np l : List Orchestration} (hsub : List.Sublist np l)
    (hnodup : l.Nodup) {d c : Orchestration} (hb : BeforeIn l d c)
    (hd : d ∈ np) (hc : c ∈ np) : BeforeIn np d c := by
  obtain ⟨a1, a2, heq, hd1mem, hc2mem⟩ := hb
  subst heq
  obtain ⟨b1, b2, hnp, hb1, hb2⟩ := List.sublist_append_iff.mp hsub
  subst hnp
  rw [List.nodup_append] at hnodup
  refine ⟨b1, b2, rfl, ?_, ?_⟩
  · rcases List.mem_append.mp hd with h | h
    · exact h
    · exact absurd (hb2.subset h) (fun hmem => hnodup.2.2 hd1mem hmem)
  · rcases List.mem_append.mp hc with h | h
    · exact absurd hc2mem (fun hmem => hnodup.2.2 (hb1.subset h) hmem)
    · exact h

theorem filter_eq_of_sublist (p : Orchestration → Bool) :
    ∀ {np l : List Orchestration}, List.Sublist np l → l.Nodup →
    (∀ x ∈ l, x ∉ np → p x = false) → l.filter p = np.filter p := by
  intro np l hsub
  induction hsub with
  | slnil =>
    intro _ _
    rfl
  | cons a hs ih =>
    intro hnd h
    have hnotin : a ∉ _ := fun hmem => (List.nodup_cons.mp hnd).1 (hs.subset hmem)
    have hpa : p a = false := h a (List.mem_cons_self _ _) hnotin
    rw [List.filter_cons, hpa]
    simp only [Bool.false_eq_true, if_false]
    exact ih (List.nodup_cons.mp hnd).2
      (fun x hx hnx => h x (List.mem_cons_of_mem _ hx) hnx)
  | cons₂ a hs ih =>
    intro hnd h
    rw [List.filter_cons, List.filter_cons]
    have hrec := ih (List.nodup_cons.mp hnd).2 (fun x hx hnx =>
      h x (List.mem_cons_of_mem _ hx) (fun hmem => by
        rcases List.mem_cons.mp hmem with heq | hmem2
        · exact (List.nodup_cons.mp hnd).1 (heq ▸ hx)
        · exact hnx hmem2))
    rw [hrec]

/-! ## Claim C9 -/

/-- C9: on inputs with pairwise distinct ids and reference depth at most one
(a referenced configuration has no orchestrator task of its own), the
reordering pass returns a permutation of its input in which every referenced
configuration ends up strictly before each of its referencers, and the
configurations without inbound dependency keep their relative input order
(the sublists obtained by restricting input and output to them coincide). -/
theorem order_orchestration_by_link_correct (l : List Orchestration)
    (hnd : (l.map (fun o => o.id)).Nodup)
    (hd1 : ∀ c ∈ l, ∀ d ∈ l, RefersTo c d → hasOrchTaskB d = false) :
    (orderOrchestrationByLink l).Perm l
    ∧ (∀ c ∈ l, ∀ d ∈ l, RefersTo c d → BeforeIn (orderOrchestrationByLink l) d c)
    ∧ (orderOrchestrationByLink l).filter (fun o => !inboundB l o)
        = l.filter (fun o => !inboundB l o) := by
  have hinv0 : OrderInv l (l, []) :=
    ⟨List.Sublist.refl l, by simp, fun c0 hc0 _ => hc0,
     fun x hx => absurd hx (List.not_mem_nil x)⟩
  obtain ⟨hinvF, _, hmain⟩ :=
    outer_fold_inv hnd hd1 l (fun x hx => hx) (l, []) hinv0
  obtain ⟨hsubF, hpermF, hrefF, hpopF⟩ := hinvF
  have hout : orderOrchestrationByLink l
      = (l.foldl (fun st2 c => c.tasks.foldl orderInnerStep st2) (l, [])).2
        ++ (l.foldl (fun st2 c => c.tasks.foldl orderInnerStep st2) (l, [])).1 := rfl
  have hnodupl : l.Nodup := hnd.of_map
  refine ⟨?_, ?_, ?_⟩
  · rw [hout]
    exact hpermF
  · intro c hc d hd href
    obtain ⟨t, ht, hcomp, hcfg⟩ := href
    have hcB : hasOrchTaskB c = true := hasOrchTaskB_of_task ht hcomp
    have hcnp : c ∈ (l.foldl (fun st2 c => c.tasks.foldl orderInnerStep st2) (l, [])).1 :=
      hrefF c hc hcB
    rcases hmain c hc d hd ⟨t, ht, hcomp, hcfg⟩ with h | h
    · exact ⟨_, _, hout, h, hcnp⟩
    · by_cases hdpr : d ∈ (l.foldl (fun st2 c => c.tasks.foldl orderInnerStep st2) (l, [])).2
      · exact ⟨_, _, hout, hdpr, hcnp⟩
      · have hdnp : d ∈ (l.foldl (fun st2 c => c.tasks.foldl orderInnerStep st2) (l, [])).1 := by
          rcases List.mem_append.mp (hpermF.mem_iff.mpr hd) with h2 | h2
          · exact absurd h2 hdpr
          · exact h2
        obtain ⟨n1, n2, hn, hdn1, hcn2⟩ := beforeIn_of_sublist hsubF hnodupl h hdnp hcnp
        refine ⟨(l.foldl (fun st2 c => c.tasks.foldl orderInnerStep st2) (l, [])).2 ++ n1,
          n2, ?_, List.mem_append_right _ hdn1, hcn2⟩
        rw [hout, hn, List.append_assoc]
  · rw [hout, List.filter_append]
    have h2 : ((l.foldl (fun st2 c => c.tasks.foldl orderInnerStep st2) (l, [])).2).filter
        (fun o => !inboundB l o) = [] := by
      rw [List.filter_eq_nil_iff]
      intro x hx
      obtain ⟨c0, hc0, href⟩ := hpopF x hx
      rw [inboundB_of_refers hc0 href]
      simp
    rw [h2, List.nil_append]
    refine (filter_eq_of_sublist _ hsubF hnodupl ?_).symm
    intro x hx hnx
    have hmem2 : x ∈ (l.foldl (fun st2 c => c.tasks.foldl orderInnerStep st2) (l, [])).2 := by
      rcases List.mem_append.mp (hpermF.mem_iff.mpr hx) with h3 | h3
      · exact h3
      · exact absurd h3 hnx
    obtain ⟨c0, hc0, href⟩ := hpopF x hmem2
    rw [inboundB_of_refers hc0 href]
    simp

/-- C9 witness: the reordering theorem applied to a concrete two-element list
in which the first configuration references the second. -/
theorem order_orchestration_by_link_correct_witness :
    (orderOrchestrationByLink
      [⟨1, [⟨"orchestrator", 2⟩], .null⟩, ⟨2, [], .null⟩]).Perm
      [⟨1, [⟨"orchestrator", 2⟩], .null⟩, ⟨2, [], .null⟩] :=
  (order_orchestration_by_link_correct
    [⟨1, [⟨"orchestrator", 2⟩], .null⟩, ⟨2, [], .null⟩]
    (by decide)
    (by
      intro c hc d hd href
      rcases href with ⟨t, ht, hcomp, hcfg⟩
      rcases List.mem_cons.mp hd with rfl | hd2
      · rcases List.mem_cons.mp hc with rfl | hc2
        · have htt := List.mem_singleton.mp ht
          subst htt
          exact absurd hcfg (by decide)
        · have hcc := List.mem_singleton.mp hc2
          subst hcc
          exact absurd ht (List.not_mem_nil t)
      · have hdd := List.mem_singleton.mp hd2
        subst hdd
        rfl)).1

/-! ## Strict path resolution (specification side, for claim C7) -/

/-- Strict resolution of a key path: the value at the path when every key is
present and every parent is a dictionary, and `none` otherwise (no partial
results, unlike the code's `find_value`). -/
def getPath : List String → JVal → Option JVal
  | [], v => some v
  | k :: ks, v =>
    match v with
    | .obj kvs =>
      match alGet kvs k with
      | some v2 => getPath ks v2
      | none => none
    | _ => none

theorem alSet_alGet_id {κ α : Type} [DecidableEq κ] {kvs : List (κ × α)} {k : κ} {x : α}
    (h : alGet kvs k = some x) : alSet kvs k x = kvs := by
  induction kvs with
  | nil => exact Option.noConfusion h
  | cons hd tl ih =>
    obtain ⟨k0, v0⟩ := hd
    by_cases h0 : k0 = k
    · subst h0
      rw [alGet, if_pos rfl, Option.some.injEq] at h
      rw [alSet, if_pos rfl, h]
    · rw [alGet, if_neg h0] at h
      rw [alSet, if_neg h0, ih h]

theorem getPath_not_obj {ks : List String} {v : JVal} (hks : ks ≠ [])
    (hv : ∀ kvs, v ≠ JVal.obj kvs) : getPath ks v = none := by
  cases ks with
  | nil => exact absurd rfl hks
  | cons k ks2 =>
    cases v with
    | obj kvs => exact absurd rfl (hv kvs)
    | null => rfl
    | bool b2 => rfl
    | num n => rfl
    | str s => rfl
    | arr xs => rfl

theorem getPath_cons_obj (k : String) (ks : List String) (kvs : List (String × JVal)) :
    getPath (k :: ks) (.obj kvs) =
      match alGet kvs k with
      | some v2 => getPath ks v2
      | none => none := rfl

theorem getPath_append (a b : List String) (v : JVal) :
    getPath (a ++ b) v = (getPath a v).bind (getPath b) := by
  induction a generalizing v with
  | nil => rfl
  | cons k a2 ih =>
    rw [List.cons_append]
    cases v with
    | obj kvs =>
      rw [getPath_cons_obj, getPath_cons_obj]
      cases alGet kvs k with
      | some v2 => exact ih v2
      | none => rfl
    | null => rfl
    | bool b2 => rfl
    | num n => rfl
    | str s => rfl
    | arr xs => rfl

theorem findValue_eq_ok_of_getPath {ks : List String} {v u : JVal}
    (h : getPath ks v = some u) : findValue ks v = .ok u := by
  induction ks generalizing v with
  | nil =>
    rw [getPath, Option.some.injEq] at h
    rw [findValue, h]
  | cons k ks2 ih =>
    cases v with
    | obj kvs =>
      rw [getPath_cons_obj] at h
      cases hg : alGet kvs k with
      | some v2 =>
        rw [hg] at h
        rw [findValue, hg]
        exact ih h
      | none =>
        rw [hg] at h
        exact Option.noConfusion h
    | null => exact Option.noConfusion h
    | bool b2 => exact Option.noConfusion h
    | num n => exact Option.noConfusion h
    | str s => exact Option.noConfusion h
    | arr xs => exact Option.noConfusion h

theorem truthy_of_getPath_cons {k : String} {ks : List String} {v u : JVal}
    (h : getPath (k :: ks) v = some u) : truthy v = true := by
  cases v with
  | obj kvs =>
    cases kvs with
    | nil =>
      rw [getPath_cons_obj] at h
      exact Option.noConfusion h
    | cons hd tl => rfl
  | null => exact Option.noConfusion h
  | bool b2 =>
    cases b2 with
    | true => rfl
    | false => exact Option.noConfusion h
  | num n => exact Option.noConfusion h
  | str s => exact Option.noConfusion h
  | arr xs => exact Option.noConfusion h

theorem replaceValue_ok_of_getPath {ks : List String} {v u : JVal} (nv : JVal)
    (h : getPath ks v = some u) (hne : ks ≠ []) :
    ∃ w, replaceValue ks v nv = .ok w := by
  induction ks generalizing v with
  | nil => exact absurd rfl hne
  | cons k ks2 ih =>
    cases v with
    | obj kvs =>
      rw [getPath_cons_obj] at h
      cases hg : alGet kvs k with
      | some v2 =>
        rw [hg] at h
        cases ks2 with
        | nil => exact ⟨.obj (alSet kvs k nv), rfl⟩
        | cons k2 ks3 =>
          obtain ⟨w2, hw2⟩ := ih h (fun hh => List.noConfusion hh)
          refine ⟨.obj (alSet kvs k w2), ?_⟩
          simp only [replaceValue, hg, hw2]
      | none =>
        rw [hg] at h
        exact Option.noConfusion h
    | null => exact Option.noConfusion h
    | bool b2 => exact Option.noConfusion h
    | num n => exact Option.noConfusion h
    | str s => exact Option.noConfusion h
    | arr xs => exact Option.noConfusion h

theorem getPath_replaceValue_self {ks : List String} {v nv w : JVal}
    (h : replaceValue ks v nv = .ok w) (hne : ks ≠ []) : getPath ks w = some nv := by
  induction ks generalizing v w with
  | nil => exact absurd rfl hne
  | cons k ks2 ih =>
    cases ks2 with
    | nil =>
      cases v with
      | obj kvs =>
        rw [replaceValue, Except.ok.injEq] at h
        rw [← h]
        simp only [getPath_cons_obj, alGet_alSet_same]
        rfl
      | null => exact Except.noConfusion h
      | bool b2 => exact Except.noConfusion h
      | num n => exact Except.noConfusion h
      | str s => exact Except.noConfusion h
      | arr xs => exact Except.noConfusion h
    | cons k2 ks3 =>
      cases v with
      | obj kvs =>
        rw [replaceValue] at h
        cases hg : alGet kvs k with
        | some child =>
          simp only [hg] at h
          cases hrep : replaceValue (k2 :: ks3) child nv with
          | ok child2 =>
            simp only [hrep, Except.ok.injEq] at h
            rw [← h]
            simp only [getPath_cons_obj, alGet_alSet_same]
            exact ih hrep (fun hh => List.noConfusion hh)
          | error e =>
            simp only [hrep] at h
            exact Except.noConfusion h
        | none =>
          simp only [hg] at h
          exact Except.noConfusion h
      | null => exact Except.noConfusion h
      | bool b2 => exact Except.noConfusion h
      | num n => exact Except.noConfusion h
      | str s => exact Except.noConfusion h
      | arr xs => exact Except.noConfusion h

theorem getPath_isSome_of_replaceValue {q s : List String} {v nv w : JVal}
    (h : replaceValue (q ++ s) v nv = .ok w) :
    ∃ u2, getPath q w = some u2 := by
  induction q generalizing v w with
  | nil => exact ⟨w, rfl⟩
  | cons k q2 ih =>
    rw [List.cons_append] at h
    cases hrest : q2 ++ s with
    | nil =>
      obtain ⟨hq2, _⟩ := List.append_eq_nil.mp hrest
      subst hq2
      rw [hrest] at h
      cases v with
      | obj kvs =>
        rw [replaceValue, Except.ok.injEq] at h
        refine ⟨nv, ?_⟩
        rw [← h]
        simp only [getPath_cons_obj, alGet_alSet_same]
        rfl
      | null => exact Except.noConfusion h
      | bool b2 => exact Except.noConfusion h
      | num n => exact Except.noConfusion h
      | str s2 => exact Except.noConfusion h
      | arr xs => exact Except.noConfusion h
    | cons r rs =>
      rw [hrest] at h
      cases v with
      | obj kvs =>
        rw [replaceValue] at h
        cases hg : alGet kvs k with
        | some child =>
          simp only [hg] at h
          cases hrep : replaceValue (r :: rs) child nv with
          | ok child2 =>
            simp only [hrep, Except.ok.injEq] at h
            have hrep2 : replaceValue (q2 ++ s) child nv = .ok child2 := by
              rw [hrest]
              exact hrep
            obtain ⟨u2, hu2⟩ := ih hrep2
            refine ⟨u2, ?_⟩
            rw [← h]
            simp only [getPath_cons_obj, alGet_alSet_same]
            exact hu2
          | error e =>
            simp only [hrep] at h
            exact Except.noConfusion h
        | none =>
          simp only [hg] at h
          exact Except.noConfusion h
      | null => exact Except.noConfusion h
      | bool b2 => exact Except.noConfusion h
      | num n => exact Except.noConfusion h
      | str s2 => exact Except.noConfusion h
      | arr xs => exact Except.noConfusion h

theorem splitDotAux_ne_nil (l cur : List Char) : splitDotAux l cur ≠ [] := by
  induction l generalizing cur with
  | nil => exact fun h => List.noConfusion h
  | cons c rest ih =>
    rw [splitDotAux]
    by_cases hc : c = '.'
    · rw [if_pos hc]
      exact fun h => List.noConfusion h
    · rw [if_neg hc]
      exact ih (c :: cur)

theorem splitDot_ne_nil (s : String) : splitDot s ≠ [] :=
  splitDotAux_ne_nil s.data []

theorem replaceValue_getPath_id {ks : List String} {v nv : JVal}
    (h : getPath ks v = some nv) (hne : ks ≠ []) : replaceValue ks v nv = .ok v := by
  induction ks generalizing v with
  | nil => exact absurd rfl hne
  | cons k ks2 ih =>
    cases v with
    | obj kvs =>
      rw [getPath_cons_obj] at h
      cases hg : alGet kvs k with
      | some v2 =>
        rw [hg] at h
        cases ks2 with
        | nil =>
          injection h with h
          subst h
          rw [replaceValue, alSet_alGet_id hg]
        | cons k2 ks3 =>
          have hrec := ih h (fun hh => List.noConfusion hh)
          simp only [replaceValue, hg, hrec]
          rw [alSet_alGet_id hg]
      | none =>
        rw [hg] at h
        exact Option.noConfusion h
    | null => exact Option.noConfusion h
    | bool b2 => exact Option.noConfusion h
    | num n => exact Option.noConfusion h
    | str s => exact Option.noConfusion h
    | arr xs => exact Option.noConfusion h

theorem getPath_replaceValue_append {q : List String} {v nv w : JVal}
    (h : replaceValue q v nv = .ok w) (hq : q ≠ []) (r : List String) :
    getPath (q ++ r) w = getPath r nv := by
  rw [getPath_append, getPath_replaceValue_self h hq]
  rfl

theorem getPath_replaceValue_diverge {p s t : List String} {x y : String}
    (hxy : x ≠ y) {v nv w : JVal}
    (h : replaceValue (p ++ x :: s) v nv = .ok w) :
    getPath (p ++ y :: t) w = getPath (p ++ y :: t) v := by
  induction p generalizing v w with
  | nil =>
    rw [List.nil_append] at h ⊢
    cases s with
    | nil =>
      cases v with
      | obj kvs =>
        rw [replaceValue, Except.ok.injEq] at h
        rw [← h, getPath_cons_obj, getPath_cons_obj, alGet_alSet_other kvs x y nv hxy]
      | null => exact Except.noConfusion h
      | bool b2 => exact Except.noConfusion h
      | num n => exact Except.noConfusion h
      | str s2 => exact Except.noConfusion h
      | arr xs => exact Except.noConfusion h
    | cons s1 s2 =>
      cases v with
      | obj kvs =>
        rw [replaceValue] at h
        cases hg : alGet kvs x with
        | some child =>
          simp only [hg] at h
          cases hrep : replaceValue (s1 :: s2) child nv with
          | ok child2 =>
            simp only [hrep, Except.ok.injEq] at h
            rw [← h, getPath_cons_obj, getPath_cons_obj,
              alGet_alSet_other kvs x y child2 hxy]
          | error e =>
            simp only [hrep] at h
            exact Except.noConfusion h
        | none =>
          simp only [hg] at h
          exact Except.noConfusion h
      | null => exact Except.noConfusion h
      | bool b2 => exact Except.noConfusion h
      | num n => exact Except.noConfusion h
      | str s2 => exact Except.noConfusion h
      | arr xs => exact Except.noConfusion h
  | cons k p2 ih =>
    rw [List.cons_append] at h ⊢
    cases hL : p2 ++ x :: s with
    | nil =>
      obtain ⟨_, h2⟩ := List.append_eq_nil.mp hL
      exact List.noConfusion h2
    | cons l1 l2 =>
      rw [hL] at h
      cases v with
      | obj kvs =>
        rw [replaceValue] at h
        cases hg : alGet kvs k with
        | some child =>
          simp only [hg] at h
          cases hrep : replaceValue (l1 :: l2) child nv with
          | ok child2 =>
            simp only [hrep, Except.ok.injEq] at h
            have hrep2 : replaceValue (p2 ++ x :: s) child nv = .ok child2 := by
              rw [hL]
              exact hrep
            rw [← h]
            simp only [getPath_cons_obj, alGet_alSet_same, hg]
            exact ih hrep2
          | error e =>
            simp only [hrep] at h
            exact Except.noConfusion h
        | none =>
          simp only [hg] at h
          exact Except.noConfusion h
      | null => exact Except.noConfusion h
      | bool b2 => exact Except.noConfusion h
      | num n => exact Except.noConfusion h
      | str s2 => exact Except.noConfusion h
      | arr xs => exact Except.noConfusion h

theorem prefix_trichotomy {α : Type} (a b : List α) :
    (∃ t, b = a ++ t) ∨ (∃ t, a = b ++ t) ∨
    ∃ p x y s t, x ≠ y ∧ a = p ++ x :: s ∧ b = p ++ y :: t := by
  induction a generalizing b with
  | nil => exact Or.inl ⟨b, rfl⟩
  | cons k a2 ih =>
    cases b with
    | nil => exact Or.inr (Or.inl ⟨k :: a2, rfl⟩)
    | cons k2 b2 =>
      by_cases hk : k = k2
      · subst hk
        rcases ih b2 with ⟨t, ht⟩ | ⟨t, ht⟩ | ⟨p, x, y, s, t, hxy, ha, hb⟩
        · exact Or.inl ⟨t, by rw [ht, List.cons_append]⟩
        · exact Or.inr (Or.inl ⟨t, by rw [ht, List.cons_append]⟩)
        · exact Or.inr (Or.inr ⟨k :: p, x, y, s, t, hxy,
            by rw [ha, List.cons_append], by rw [hb, List.cons_append]⟩)
      · exact Or.inr (Or.inr ⟨[], k, k2, a2, b2, hk, rfl, rfl⟩)

/-- The full key path of an ignored property path: the dotted path prefixed
with `configuration.`, split at the dots, exactly as
`_replace_ignored_properties` builds it. -/
def confKeys (p : String) : List String := splitDot ("configuration." ++ p)

theorem confKeys_ne_nil (p : String) : confKeys p ≠ [] := splitDot_ne_nil _

theorem replaceIgnoredStep_eq (orig x : JVal) (q : String) :
    replaceIgnoredStep orig (.ok x) q =
      match findValue (confKeys q) orig with
      | .error e => .error e
      | .ok originalValue =>
        match findValue (confKeys q) x with
        | .error e => .error e
        | .ok changedValue =>
          if truthy originalValue && truthy changedValue then
            replaceValue (confKeys q) x originalValue
          else .ok x := rfl

/-- After the first pass of `_replace_ignored_properties`, the changed
configuration's value at an ignored path is either exactly the original
configuration's value there or a falsy value (in which case the loop never
overwrites it again). -/
def AlignedOrFalsy (orig x : JVal) (p : String) : Prop :=
  ∀ ov, getPath (confKeys p) orig = some ov → truthy ov = true →
    getPath (confKeys p) x = some ov ∨
    ∃ u, getPath (confKeys p) x = some u ∧ truthy u = false

/-- Effect of a single `replace_value` write at path `qk` on reading any path
`rk`: either `rk` extends `qk` and reads inside the written value, or `rk` is
a proper prefix of `qk`, or the two paths diverge and the read is unchanged. -/
theorem getPath_after_write {qk : List String} {x nv w : JVal}
    (hw : replaceValue qk x nv = .ok w) (hqk : qk ≠ []) (rk : List String) :
    (∃ t, rk = qk ++ t ∧ getPath rk w = getPath t nv) ∨
    (∃ t, t ≠ [] ∧ qk = rk ++ t) ∨
    (rk ≠ qk ∧ getPath rk w = getPath rk x) := by
  rcases prefix_trichotomy qk rk with ⟨t, ht⟩ | ⟨t, ht⟩ | ⟨p, a, b, s, t2, hab, hq, hr⟩
  · left
    exact ⟨t, ht, by rw [ht]; exact getPath_replaceValue_append hw hqk t⟩
  · cases t with
    | nil =>
      left
      have hqr : qk = rk := by rw [ht, List.append_nil]
      refine ⟨[], ?_, ?_⟩
      · rw [List.append_nil, hqr]
      · rw [← hqr]
        exact getPath_replaceValue_self hw hqk
    | cons t1 t2 =>
      right; left
      exact ⟨t1 :: t2, fun hh => List.noConfusion hh, ht⟩
  · right; right
    subst hq hr
    refine ⟨?_, getPath_replaceValue_diverge hab hw⟩
    intro heq2
    have h3 := List.append_cancel_left heq2
    injection h3 with h4 _
    exact hab h4.symm

/-- One loop iteration of `_replace_ignored_properties` on a state in which
every ignored path strictly resolves: it succeeds, keeps every ignored path
strictly resolving, and establishes or preserves alignment with the original
configuration at every already-processed path and at the processed path. -/
theorem replaceIgnoredStep_inv {orig x : JVal} {allPaths done : List String} {q : String}
    (hq : q ∈ allPaths)
    (hdone : ∀ p ∈ done, p ∈ allPaths)
    (hRo : ∀ p ∈ allPaths, (getPath (confKeys p) orig).isSome = true)
    (hRx : ∀ p ∈ allPaths, (getPath (confKeys p) x).isSome = true)
    (hA : ∀ p ∈ done, AlignedOrFalsy orig x p) :
    ∃ x2, replaceIgnoredStep orig (.ok x) q = .ok x2 ∧
      (∀ p ∈ allPaths, (getPath (confKeys p) x2).isSome = true) ∧
      (∀ p, p ∈ done ∨ p = q → AlignedOrFalsy orig x2 p) := by
  obtain ⟨ovq, hogq⟩ := Option.isSome_iff_exists.mp (hRo q hq)
  obtain ⟨cvq, hcgq⟩ := Option.isSome_iff_exists.mp (hRx q hq)
  have hfo := findValue_eq_ok_of_getPath hogq
  have hfc := findValue_eq_ok_of_getPath hcgq
  have hne := confKeys_ne_nil q
  by_cases htr : (truthy ovq && truthy cvq) = true
  · obtain ⟨w, hw⟩ := replaceValue_ok_of_getPath ovq hcgq hne
    refine ⟨w, ?_, ?_, ?_⟩
    · rw [replaceIgnoredStep_eq]
      simp only [hfo, hfc]
      rw [if_pos htr]
      exact hw
    · intro p hp
      rcases getPath_after_write hw hne (confKeys p) with
        ⟨t, htp, heq⟩ | ⟨t, htne, hqp⟩ | ⟨hne2, heq⟩
      · rw [heq]
        have ho2 := hRo p hp
        rw [htp, getPath_append, hogq] at ho2
        exact ho2
      · rw [hqp] at hw
        obtain ⟨u2, hu2⟩ := getPath_isSome_of_replaceValue hw
        rw [hu2]
        rfl
      · rw [heq]
        exact hRx p hp
    · intro p hp
      rcases getPath_after_write hw hne (confKeys p) with
        ⟨t, htp, heq⟩ | ⟨t, htne, hqp⟩ | ⟨hne2, heq⟩
      · intro ov hov htrov
        left
        rw [heq]
        rw [htp, getPath_append, hogq] at hov
        exact hov
      · have hpd : p ∈ done := by
          rcases hp with hp | hp
          · exact hp
          · exfalso
            subst hp
            have hlen := congrArg List.length hqp
            rw [List.length_append] at hlen
            cases t with
            | nil => exact absurd rfl htne
            | cons t1 t2 =>
              rw [List.length_cons] at hlen
              omega
        have hpal := hdone p hpd
        obtain ⟨xv, hxv⟩ := Option.isSome_iff_exists.mp (hRx p hpal)
        obtain ⟨ovp, hovp⟩ := Option.isSome_iff_exists.mp (hRo p hpal)
        cases t with
        | nil => exact absurd rfl htne
        | cons t1 t2 =>
          have hoq2 : getPath (t1 :: t2) ovp = some ovq := by
            have h1 := hogq
            rw [hqp, getPath_append, hovp] at h1
            exact h1
          have hcq2 : getPath (t1 :: t2) xv = some cvq := by
            have h1 := hcgq
            rw [hqp, getPath_append, hxv] at h1
            exact h1
          have hxvt : truthy xv = true := truthy_of_getPath_cons hcq2
          have hovpt : truthy ovp = true := truthy_of_getPath_cons hoq2
          rcases hA p hpd ovp hovp hovpt with hal | ⟨u, hu, hut⟩
          · rw [hxv] at hal
            injection hal with hal
            have hcv_eq : cvq = ovq := by
              rw [hal] at hcq2
              rw [hcq2] at hoq2
              injection hoq2
            have hid : replaceValue (confKeys q) x ovq = .ok x := by
              refine replaceValue_getPath_id ?_ hne
              rw [hcgq, hcv_eq]
            have hwx : w = x := by
              rw [hid] at hw
              injection hw with hw
              exact hw.symm
            rw [hwx]
            exact hA p hpd
          · exfalso
            rw [hxv] at hu
            injection hu with hu
            rw [← hu] at hut
            rw [hxvt] at hut
            exact Bool.noConfusion hut
      · have hpd : p ∈ done := by
          rcases hp with hp | hp
          · exact hp
          · exfalso
            subst hp
            exact hne2 rfl
        intro ov hov htrov
        rcases hA p hpd ov hov htrov with hal | ⟨u, hu, hut⟩
        · left
          rw [heq]
          exact hal
        · right
          refine ⟨u, ?_, hut⟩
          rw [heq]
          exact hu
  · refine ⟨x, ?_, hRx, ?_⟩
    · rw [replaceIgnoredStep_eq]
      simp only [hfo, hfc]
      rw [if_neg htr]
    · intro p hp
      rcases hp with hp | hp
      · exact hA p hp
      · subst hp
        intro ov hov htrov
        rw [hogq] at hov
        injection hov with hov
        right
        refine ⟨cvq, hcgq, ?_⟩
        cases hcv : truthy cvq
        · rfl
        · exfalso
          apply htr
          rw [Bool.and_eq_true]
          refine ⟨?_, hcv⟩
          rw [hov]
          exact htrov

/-- The loop of `_replace_ignored_properties` over any suffix of the path list
keeps every path strictly resolving and, once done, leaves every processed
path aligned with the original configuration or falsy. -/
theorem replaceIgnored_fold_inv {orig : JVal} {allPaths : List String}
    (hRo : ∀ p ∈ allPaths, (getPath (confKeys p) orig).isSome = true) :
    ∀ (todo done : List String) (x : JVal),
      (∀ p ∈ todo, p ∈ allPaths) →
      (∀ p ∈ done, p ∈ allPaths) →
      (∀ p ∈ allPaths, (getPath (confKeys p) x).isSome = true) →
      (∀ p ∈ done, AlignedOrFalsy orig x p) →
      ∃ y, List.foldl (replaceIgnoredStep orig) (.ok x) todo = .ok y ∧
        (∀ p ∈ allPaths, (getPath (confKeys p) y).isSome = true) ∧
        (∀ p, p ∈ done ∨ p ∈ todo → AlignedOrFalsy orig y p) := by
  intro todo
  induction todo with
  | nil =>
    intro done x _ _ hRx hA
    refine ⟨x, rfl, hRx, ?_⟩
    intro p hp
    rcases hp with hp | hp
    · exact hA p hp
    · exact absurd hp (List.not_mem_nil p)
  | cons q todo2 ih =>
    intro done x htodo hdone hRx hA
    obtain ⟨x2, hstep, hRx2, hA2⟩ :=
      replaceIgnoredStep_inv (htodo q (List.mem_cons_self q todo2)) hdone hRo hRx hA
    obtain ⟨y, hy, hRy, hAy⟩ := ih (q :: done) x2
      (fun p hp => htodo p (List.mem_cons_of_mem q hp))
      (fun p hp => by
        rcases List.mem_cons.mp hp with hp | hp
        · subst hp
          exact htodo p (List.mem_cons_self p todo2)
        · exact hdone p hp)
      hRx2
      (fun p hp => by
        rcases List.mem_cons.mp hp with hp | hp
        · exact hA2 p (Or.inr hp)
        · exact hA2 p (Or.inl hp))
    refine ⟨y, ?_, hRy, ?_⟩
    · rw [List.foldl_cons, hstep]
      exact hy
    · intro p hp
      apply hAy p
      rcases hp with hp | hp
      · exact Or.inl (List.mem_cons_of_mem q hp)
      · rcases List.mem_cons.mp hp with hp | hp
        · subst hp
          exact Or.inl (List.mem_cons_self p done)
        · exact Or.inr hp

/-- On a state that is aligned-or-falsy and strictly resolving at an ignored
path, the loop iteration of `_replace_ignored_properties` is the identity. -/
theorem replaceIgnoredStep_noop {orig y : JVal} {q : String}
    (ho : (getPath (confKeys q) orig).isSome = true)
    (hy : (getPath (confKeys q) y).isSome = true)
    (hA : AlignedOrFalsy orig y q) :
    replaceIgnoredStep orig (.ok y) q = .ok y := by
  obtain ⟨ovq, hogq⟩ := Option.isSome_iff_exists.mp ho
  obtain ⟨yv, hygq⟩ := Option.isSome_iff_exists.mp hy
  rw [replaceIgnoredStep_eq]
  simp only [findValue_eq_ok_of_getPath hogq, findValue_eq_ok_of_getPath hygq]
  by_cases htr : (truthy ovq && truthy yv) = true
  · rw [if_pos htr]
    rw [Bool.and_eq_true] at htr
    obtain ⟨hto, hty⟩ := htr
    rcases hA ovq hogq hto with hal | ⟨u, hu, hut⟩
    · exact replaceValue_getPath_id hal (confKeys_ne_nil q)
    · exfalso
      rw [hygq] at hu
      injection hu with hu
      rw [← hu] at hut
      rw [hty] at hut
      exact Bool.noConfusion hut
  · rw [if_neg htr]

theorem replaceIgnored_fold_noop {orig y : JVal} :
    ∀ todo : List String,
      (∀ q ∈ todo, replaceIgnoredStep orig (.ok y) q = .ok y) →
      List.foldl (replaceIgnoredStep orig) (.ok y) todo = .ok y := by
  intro todo
  induction todo with
  | nil =>
    intro _
    rfl
  | cons q todo2 ih =>
    intro h
    rw [List.foldl_cons, h q (List.mem_cons_self q todo2)]
    exact ih (fun p hp => h p (List.mem_cons_of_mem q hp))

/-- C7 (amended): `_replace_ignored_properties` is idempotent on inputs where
every ignored path, prefixed with `configuration.`, strictly resolves (every
key along it present, every parent a dictionary) in both the original and the
changed configuration: the first application succeeds, and applying the
replacement again to its result returns the result unchanged.  Without the
resolution hypotheses idempotence fails, because `find_value` catches the
`KeyError` of a missing key and answers with the partially resolved value. -/
theorem replace_ignored_properties_idempotent
    (changedConfig originalConfig : JVal) (paths : List String)
    (hRo : ∀ p ∈ paths, (getPath (confKeys p) originalConfig).isSome = true)
    (hRc : ∀ p ∈ paths, (getPath (confKeys p) changedConfig).isSome = true) :
    ∃ c1, replaceIgnoredProperties changedConfig originalConfig paths = .ok c1 ∧
      replaceIgnoredProperties c1 originalConfig paths = .ok c1 := by
  obtain ⟨y, hy, hRy, hAy⟩ := replaceIgnored_fold_inv hRo paths [] changedConfig
    (fun _ hp => hp) (fun p hp => absurd hp (List.not_mem_nil p)) hRc
    (fun p hp => absurd hp (List.not_mem_nil p))
  refine ⟨y, hy, ?_⟩
  exact replaceIgnored_fold_noop paths (fun q hq =>
    replaceIgnoredStep_noop (hRo q hq) (hRy q hq) (hAy q (Or.inr hq)))

/-- C7 counterexample: `_replace_ignored_properties` is not idempotent in
general.  With ignored paths `["a.a.a", "a"]`, changed configuration
`{"configuration": {"a": {"a": {}}}}` and original configuration
`{"configuration": {"b": 0}}`, the first application succeeds and returns
`{"configuration": {"a": {"b": 0}}}`, but applying the same replacement to
that result raises an uncaught `KeyError`: the original value for `a.a.a`
resolves partially to the truthy `{"b": 0}`, and `replace_value` then hits
the missing intermediate key `a`. -/
theorem replace_ignored_properties_not_idempotent :
    replaceIgnoredProperties
      (.obj [("configuration", .obj [("a", .obj [("a", .obj [])])])])
      (.obj [("configuration", .obj [("b", .num 0)])])
      ["a.a.a", "a"]
      = .ok (.obj [("configuration", .obj [("a", .obj [("b", .num 0)])])]) ∧
    replaceIgnoredProperties
      (.obj [("configuration", .obj [("a", .obj [("b", .num 0)])])])
      (.obj [("configuration", .obj [("b", .num 0)])])
      ["a.a.a", "a"]
      = .error () := ⟨rfl, rfl⟩

/-- C7 witness: the amended idempotence theorem applied to concrete
configurations in which the single ignored path `a` strictly resolves in both
snapshots. -/
theorem replace_ignored_properties_idempotent_witness :
    ∃ c1, replaceIgnoredProperties
        (.obj [("configuration", .obj [("a", .num 1)])])
        (.obj [("configuration", .obj [("a", .num 2)])])
        ["a"] = .ok c1 ∧
      replaceIgnoredProperties c1
        (.obj [("configuration", .obj [("a", .num 2)])])
        ["a"] = .ok c1 :=
  replace_ignored_properties_idempotent
    (.obj [("configuration", .obj [("a", .num 1)])])
    (.obj [("configuration", .obj [("a", .num 2)])])
    ["a"] (by decide) (by decide)

end DevProdSync
